import Mathlib

/-!
Verification development for the py-capellambse core specification.

The repository ships the documentation of its core (low-level loader API,
format-preserving serializer, declarative reconciliation engine) but the
Python implementation files themselves are not part of the source drop.
Following the specification, each component is modelled here as a small
executable Lean development, and the spec's testable properties are settled
against these models.
-/

/-! ## Generic association-list helpers

Used throughout: the XML attribute mappings, the identity cache, and the
per-element collections are all ordered key/value lists (insertion order is
significant for the serializer, so we never sort). -/

def getA [DecidableEq K] : List (K × V) → K → Option V
  | [], _ => none
  | (k, v) :: r, key => if k = key then some v else getA r key

def setA [DecidableEq K] : List (K × V) → K → V → List (K × V)
  | [], key, v => [(key, v)]
  | (k, w) :: r, key, v => if k = key then (k, v) :: r else (k, w) :: setA r key v

def updA [DecidableEq K] (l : List (K × V)) (key : K) (d : V) (f : V → V) : List (K × V) :=
  setA l key (f ((getA l key).getD d))

def noDupKeys [DecidableEq K] : List (K × V) → Bool
  | [] => true
  | (k, _) :: r => !(r.any (fun q => q.1 = k)) && noDupKeys r

namespace Exs

/-! ## Format-preserving serializer (`capellambse.loader.exs`)

Modelled from the spec: the implementation module `capellambse/loader/exs.py`
(and its compiled variant declared in `_compiled.pyi`) is not in the source
drop.  Spec 4.4: the serializer writes a fragment with the external tool's
exact formatting: attribute order exactly as first observed (never sorted),
a fixed-width indent per nesting depth.  A fragment's bytes are modelled as
the list of its physical lines; each line is an indentation depth plus one
structural token (an opening tag with its ordered attributes, a closing tag,
or a self-closing childless element). -/

inductive LineKind where
  | openTag (tag : String) (attrs : List (String × String))
  | closeTag (tag : String)
  | selfClose (tag : String) (attrs : List (String × String))
deriving DecidableEq

structure Line where
  indent : Nat
  kind : LineKind
deriving DecidableEq

/-- An in-memory element tree: type tag, ordered attribute mapping,
ordered children. -/
inductive XTree where
  | node (tag : String) (attrs : List (String × String)) (children : List XTree)

mutual

/-- Modelled from the spec: `serialize(fragment) -> bytes` (spec 4.4), emitting
one line per structural token with a fixed-width indent per nesting depth and
attributes in stored (first-observed) order. -/
def serialize (d : Nat) : XTree → List Line
  | .node t a [] => [⟨d, .selfClose t a⟩]
  | .node t a (c :: cs) =>
      ⟨d, .openTag t a⟩ :: (serializeList (d + 1) (c :: cs) ++ [⟨d, .closeTag t⟩])

def serializeList (d : Nat) : List XTree → List Line
  | [] => []
  | c :: cs => serialize d c ++ serializeList d cs

end

/-- A whole fragment, serialized from depth 0. -/
def serializeDoc (t : XTree) : List Line := serialize 0 t

mutual

/-- Modelled from the spec: the loader parses fragments with LXML (low-level
API docs), for which inter-element whitespace is not significant; the parser
therefore ignores each line's indentation.  Fuel-based recursive descent:
parse one element. -/
def parseOne : Nat → List Line → Option (XTree × List Line)
  | 0, _ => none
  | _ + 1, [] => none
  | fuel + 1, ln :: r =>
    match ln.kind with
    | .selfClose t a => some (.node t a [], r)
    | .openTag t a =>
      match parseMany fuel r with
      | (cs, r') =>
        match r' with
        | ⟨_, LineKind.closeTag t'⟩ :: r'' =>
            if t = t' then some (.node t a cs, r'') else none
        | _ => none
    | .closeTag _ => none

/-- Parse a (possibly empty) run of sibling elements, stopping before a
closing tag or at the end of input. -/
def parseMany : Nat → List Line → (List XTree × List Line)
  | 0, l => ([], l)
  | fuel + 1, l =>
    match parseOne fuel l with
    | none => ([], l)
    | some (t, r) =>
      match parseMany fuel r with
      | (ts, r') => (t :: ts, r')

end

/-- Modelled from the spec: `load` (spec 4.1) parses one fragment; structural
corruption (unterminated or stray elements, trailing garbage) fails. -/
def load (ls : List Line) : Option XTree :=
  match parseOne (2 * ls.length) ls with
  | some (t, []) => some t
  | _ => none

mutual

/-- Fuel bound needed by `parseOne` to consume one serialized element. -/
def needT : XTree → Nat
  | .node _ _ cs => needL cs + 1

def needL : List XTree → Nat
  | [] => 0
  | c :: cs => needT c + needL cs + 1

end

/-- Does the parser necessarily stop at this input (end, or closing tag)? -/
def stopHead : List Line → Bool
  | [] => true
  | ln :: _ =>
    match ln.kind with
    | .closeTag _ => true
    | _ => false

/-- A small concrete fragment: one parent, one childless child whose two
attributes are deliberately NOT in sorted order. -/
def tEx : XTree :=
  .node "ownedArchitectures" []
    [.node "ownedFunctions" [("name", "brew coffee"), ("id", "f1")] []]

/-- `tEx` in the canonical on-disk format. -/
def fCanon : List Line := serializeDoc tEx

/-- The same fragment with a non-canonical indentation on the inner line:
still well-formed XML (whitespace is insignificant to the parser), but not
in the serializer's output format. -/
def fBad : List Line :=
  [⟨0, .openTag "ownedArchitectures" []⟩,
   ⟨3, .selfClose "ownedFunctions" [("name", "brew coffee"), ("id", "f1")]⟩,
   ⟨0, .closeTag "ownedArchitectures"⟩]

end Exs

namespace Loader

/-! ## Low-level loader: fragment tree and identity cache (`MelodyLoader`)

Modelled from the spec: `capellambse/loader/core.py` is not in the source
drop; the model follows spec 3/4.1/4.2 and the low-level API documentation.
Elements live in an arena addressed by stable integer handles (spec 9,
"Cyclic back-references"); the tree structure is a parent pointer per
element; fragment roots have no parent.  Handles grow monotonically: a
child's handle is always larger than its parent's (arena allocation order).
The identity cache is a separate mapping from UUID to handle. -/

structure LElem where
  uuid : Option String
  parent : Option Nat
deriving DecidableEq

structure LModel where
  elems : List (Nat × LElem)
  cache : List (String × Nat)
deriving DecidableEq

def lookupH (m : LModel) (h : Nat) : Option LElem := getA m.elems h

/-- Modelled from the spec: `lookup(id) -> Element option` on the identity
cache (spec 4.2). -/
def cacheLookup (m : LModel) (u : String) : Option Nat := getA m.cache u

def liveB (m : LModel) (h : Nat) : Bool := (lookupH m h).isSome

/-- Walk the parent chain; fuel-based, `h + 1` steps always suffice because a
parent's handle is smaller than its child's. -/
def reachF (m : LModel) : Nat → Nat → Bool
  | 0, _ => false
  | fuel + 1, h =>
    match lookupH m h with
    | none => false
    | some e =>
      match e.parent with
      | none => true
      | some p => reachF m fuel p

/-- An element is reachable from a fragment root when its whole parent chain
is made of live elements and ends at a parentless (fragment root) element. -/
def reachable (m : LModel) (h : Nat) : Prop := reachF m (h + 1) h = true

/-- The ancestor chain of a handle (nearest parent first), fuel-based. -/
def chainF (m : LModel) : Nat → Nat → List Nat
  | 0, _ => []
  | fuel + 1, h =>
    match lookupH m h with
    | none => []
    | some e =>
      match e.parent with
      | none => []
      | some p => p :: chainF m fuel p

/-- All live handles whose ancestor chain passes through `h`, plus `h`:
the physical subtree rooted at `h`. -/
def descSet (m : LModel) (h : Nat) : List Nat :=
  h :: (m.elems.filter (fun q => h ∈ chainF m (q.1 + 1) q.1)).map (·.1)

/-- Well-formedness of a loaded model: distinct handles, distinct cached
UUIDs, every parent live with a smaller handle, and the cache in exact
two-way correspondence with the identified live elements. -/
def wfL (m : LModel) : Bool :=
  noDupKeys m.elems &&
  noDupKeys m.cache &&
  m.elems.all (fun q =>
    match q.2.parent with
    | none => true
    | some p => decide (p < q.1) && liveB m p) &&
  m.cache.all (fun q =>
    match lookupH m q.2 with
    | some e => decide (e.uuid = some q.1)
    | none => false) &&
  m.elems.all (fun q =>
    match q.2.uuid with
    | none => true
    | some u => decide (getA m.cache u = some q.1))

/-- Modelled from the spec: inserting one identified element into the graph,
as the documented composite of the tree insertion and `idcache_index`
(spec 3 "Lifecycle", low-level API docs "Creating objects").  Fails (state
rejected) on a handle clash, a dead parent, a non-monotonic handle, or a
`DuplicateIdentifier` (spec 4.2). -/
def insertOp (m : LModel) (h : Nat) (u : Option String) (p : Nat) : Option LModel :=
  if liveB m h then none
  else if !liveB m p then none
  else if !decide (p < h) then none
  else
    match u with
    | none => some { elems := m.elems ++ [(h, ⟨none, some p⟩)], cache := m.cache }
    | some u' =>
      if (getA m.cache u').isSome then none
      else
        some { elems := m.elems ++ [(h, ⟨some u', some p⟩)],
               cache := m.cache ++ [(u', h)] }

/-- Modelled from the spec: deleting an element, as the documented composite
of `idcache_remove` on the subtree and the tree removal (low-level API docs
"Deleting objects"; spec 3: destruction removes the cache entry atomically
with removal from the tree). -/
def deleteOp (m : LModel) (h : Nat) : Option LModel :=
  if !liveB m h then none
  else
    some { elems := m.elems.filter (fun q => !(q.1 ∈ descSet m h)),
           cache := m.cache.filter (fun q => !(q.2 ∈ descSet m h)) }

inductive LOp where
  | insert (h : Nat) (u : Option String) (p : Nat)
  | delete (h : Nat)

/-- Apply a sequence of insert/delete operations; a rejected operation
(raised error in the implementation) leaves the model unchanged. -/
def applyL (m : LModel) : List LOp → LModel
  | [] => m
  | .insert h u p :: r =>
    applyL ((insertOp m h u p).getD m) r
  | .delete h :: r =>
    applyL ((deleteOp m h).getD m) r

/-! Primitive (non-composite) mutations of the low-level API: plain LXML tree
edits and the two explicit cache maintenance calls.  Modelled from the
low-level API documentation: the tree edits perform no cache bookkeeping at
all, and the cache calls touch only the cache. -/

/-- Plain LXML tree insertion: no identity-cache bookkeeping happens. -/
def treeInsert (m : LModel) (h : Nat) (u : Option String) (p : Nat) : LModel :=
  { m with elems := m.elems ++ [(h, ⟨u, some p⟩)] }

/-- Plain LXML tree removal of a physical subtree: the cache is untouched. -/
def treeRemove (m : LModel) (h : Nat) : LModel :=
  { m with elems := m.elems.filter (fun q => !(q.1 ∈ descSet m h)) }

/-- Modelled from the spec: `MelodyLoader.idcache_index` — register an
element's UUID in the cache; the tree is untouched. -/
def idcache_index (m : LModel) (h : Nat) : LModel :=
  match lookupH m h with
  | none => m
  | some e =>
    match e.uuid with
    | none => m
    | some u =>
      if (getA m.cache u).isSome then m
      else { m with cache := m.cache ++ [(u, h)] }

/-- Modelled from the spec: `MelodyLoader.idcache_remove` — drop an element's
UUID from the cache; the tree is untouched. -/
def idcache_remove (m : LModel) (h : Nat) : LModel :=
  { m with cache := m.cache.filter (fun q => !(q.2 = h)) }

/-- A small well-formed starting model: one identified fragment root. -/
def m0c : LModel := ⟨[(0, ⟨some "root", none⟩)], [("root", 0)]⟩

/-- A concrete operation sequence: insert a child and a grandchild, then
delete the child's subtree. -/
def opsC : List LOp := [.insert 1 (some "a") 0, .insert 2 (some "b") 1, .delete 1]

/-- `m0c` after a raw LXML tree insertion with NO `idcache_index` call. -/
def mW1 : LModel := treeInsert m0c 1 (some "u1") 0

/-- `mW1` after the explicit `idcache_index` call. -/
def mW2 : LModel := idcache_index mW1 1

/-- `mW2` after a raw LXML tree removal with NO `idcache_remove` call. -/
def mW3 : LModel := treeRemove mW2 1

end Loader

namespace Frag

/-! ## Fragment-boundary-transparent ancestor traversal

Modelled from the spec: `MelodyLoader.iterancestors` of
`capellambse/loader/core.py` is not in the source drop; the model follows
spec 4.1 and the low-level API documentation: an element that is the
physical root of its fragment has no physical parent (`getparent()` is
`None`), and the traversal must continue across the fragment boundary using
the placeholder back-references recorded at load time. -/

structure FElem where
  physParent : Option Nat
deriving DecidableEq

structure FModel where
  elems : List (Nat × FElem)
  backrefs : List (Nat × Nat)
deriving DecidableEq

def liveF (m : FModel) (h : Nat) : Bool := (getA m.elems h).isSome

/-- The logical parent: the physical parent when there is one, otherwise the
back-reference recorded at load time for a fragment root nested in another
fragment. -/
def logicalParent (m : FModel) (h : Nat) : Option Nat :=
  match getA m.elems h with
  | none => none
  | some e =>
    match e.physParent with
    | some p => some p
    | none => getA m.backrefs h

/-- Handles are allocated in load order, so every logical parent has a
smaller handle than its child; well-formedness also requires parents live. -/
def wfF (m : FModel) : Bool :=
  noDupKeys m.elems &&
  m.elems.all (fun q =>
    match logicalParent m q.1 with
    | none => true
    | some p => decide (p < q.1) && liveF m p)

def ancestorsF (m : FModel) : Nat → Nat → List Nat
  | 0, _ => []
  | fuel + 1, h =>
    match logicalParent m h with
    | none => []
    | some p => p :: ancestorsF m fuel p

/-- Modelled from the spec: `ancestors(element)` (spec 4.1) /
`MelodyLoader.iterancestors`: the finite chain of logical ancestors,
immediate parent first. -/
def iterancestors (m : FModel) (h : Nat) : List Nat :=
  ancestorsF m (h + 1) h

/-- A concrete two-fragment model: handles 0 (root of fragment A) and 1
(child of 0, the placeholder position) belong to fragment A; handle 2 is
the physical root of fragment B, logically nested below 1 via the
back-reference recorded at load time; handle 3 sits deep inside B. -/
def mEx : FModel :=
  { elems := [(0, ⟨none⟩), (1, ⟨some 0⟩), (2, ⟨none⟩), (3, ⟨some 2⟩)],
    backrefs := [(2, 1)] }

end Frag

namespace UuidGen

/-! ## Identifier generation (`MelodyLoader.generate_uuid`)

Modelled from the spec: the implementation is not in the source drop; the
model follows spec 4.2 and the environment variable documentation for
`CAPELLAMBSE_UUID_SEED`: a deterministic pseudo-random generator seeded
once, each candidate checked against the identity cache and the generator
re-queried on collision. -/

/-- A concrete deterministic pseudo-random generator: candidate number `n`
of the stream for `seed`. -/
def prng (seed n : Nat) : Nat :=
  (seed * 6364136223846793005 + n * 1442695040888963407 + 1013904223) % (2 ^ 64)

/-- Modelled from the spec: `generate_id(seed?)` / `generate_uuid`: draw from
the PRNG stream at counter `n`, skipping any candidate already present in
the cache; returns the fresh identifier and the next counter.  Fuel-based
(the PRNG stream could in principle stay inside the cache forever). -/
def generate_uuid (seed : Nat) (cache : List Nat) : Nat → Nat → Option (Nat × Nat)
  | _, 0 => none
  | n, fuel + 1 =>
    if prng seed n ∈ cache then generate_uuid seed cache (n + 1) fuel
    else some (prng seed n, n + 1)

/-- One creation run: generate `count` identifiers in order, registering each
into the cache before the next is drawn (an element is inserted and indexed
before the next one is created). -/
def genRun (seed : Nat) : List Nat → Nat → Nat → List Nat
  | _, _, 0 => []
  | cache, n, count + 1 =>
    match generate_uuid seed cache n (cache.length + count + 1) with
    | none => []
    | some (id, n') => id :: genRun seed (id :: cache) n' count

/-- The naive expected identifier sequence: the raw PRNG stream with no
collision checking. -/
def naiveRun (seed : Nat) : Nat → Nat → List Nat
  | _, 0 => []
  | n, count + 1 => prng seed n :: naiveRun seed (n + 1) count

end UuidGen

namespace Decl

/-! ## Declarative reconciliation engine (`capellambse.decl`)

Modelled from the spec: `capellambse/decl.py` is not in the source drop; the
model follows spec 4.5 and the declarative modelling documentation
(`docs/source/start/declarative.rst`).  A graph is an arena of elements
addressed by identifier; each element carries its type tag, an ordered
attribute mapping, its owning (strict containment) collections holding
child identifiers, and its non-owning reference collections holding link
records.  A link record is either a resolved identifier or a still-symbolic
promise token; promise resolution is deferred to the end of a pass
(spec 4.5 step 4).  Which collection names are owning is meta-model input
(spec 9, open question) and is passed in as a classification function. -/

inductive PRef where
  | res (id : Nat)
  | prom (token : String)
deriving DecidableEq

structure DElem where
  typ : String
  attrs : List (String × String)
  owned : List (String × List Nat)
  refs : List (String × List PRef)
deriving DecidableEq

structure Graph where
  elems : List (Nat × DElem)
  nextId : Nat
deriving DecidableEq

def lookupE (g : Graph) (i : Nat) : Option DElem := getA g.elems i

/-- Update one existing element in place (arena order untouched). -/
def updE (g : Graph) (i : Nat) (f : DElem → DElem) : Graph :=
  { g with elems := g.elems.map (fun q => if q.1 = i then (q.1, f q.2) else q) }

def addE (g : Graph) (i : Nat) (e : DElem) : Graph :=
  { g with elems := g.elems ++ [(i, e)] }

def ownedOf (g : Graph) (i : Nat) (coll : String) : List Nat :=
  match lookupE g i with
  | none => []
  | some e => (getA e.owned coll).getD []

def refsOf (g : Graph) (i : Nat) (coll : String) : List PRef :=
  match lookupE g i with
  | none => []
  | some e => (getA e.refs coll).getD []

/-- Write a whole attribute mapping, key by key, in document order. -/
def applyKVs (a : List (String × String)) (kvs : List (String × String)) :
    List (String × String) :=
  kvs.foldl (fun acc kv => setA acc kv.1 kv.2) a

def matchesFind (e : DElem) (fs : List (String × String)) : Bool :=
  fs.all (fun kv => decide (getA e.attrs kv.1 = some kv.2))

inductive DErr where
  | parentNotFound
  | ambiguousSelector
  | typeMismatch
  | targetNotFound
  | duplicatePromise (token : String)
  | unresolvedPromise (token : String)
  | unsupportedDeleteTarget
deriving DecidableEq

inductive Selector where
  | byId (id : Nat)
  | byFind (typ : Option String) (attrs : List (String × String))
deriving DecidableEq

inductive ExtEntry where
  | newObj (typ : String) (attrs : List (String × String)) (promiseId : Option String)
  | refId (id : Nat)
  | refPromise (token : String)
deriving DecidableEq

inductive DelTarget where
  | byId (id : Nat)
  | byFind (attrs : List (String × String))
deriving DecidableEq

inductive Op where
  | extend (coll : String) (entries : List ExtEntry)
  | setAttr (key value : String)
  | sync (coll : String) (find : List (String × String))
      (vals : List (String × String)) (promiseId : Option String)
  | delete (coll : String) (targets : List DelTarget)
deriving DecidableEq

structure Instr where
  parent : Selector
  ops : List Op
deriving DecidableEq

/-- The meta-model's owning/non-owning classification of collections. -/
def MM : Type := String → Bool

/-- Per-pass state: the working graph and the promise bindings made so far
(write-once, resolved at end of pass). -/
structure PState where
  g : Graph
  promises : List (String × Nat)
deriving DecidableEq

def matchSel (e : DElem) (t : Option String) (fs : List (String × String)) : Bool :=
  (match t with
   | none => true
   | some ty => decide (e.typ = ty)) && matchesFind e fs

/-- Modelled from the spec: resolve an instruction's parent selector
(spec 4.5 step 2): identifier lookup, or a predicate scan that must match
exactly one element. -/
def resolveSelector (g : Graph) : Selector → Except DErr Nat
  | .byId i =>
    match lookupE g i with
    | some _ => .ok i
    | none => .error .parentNotFound
  | .byFind t fs =>
    match g.elems.filter (fun q => matchSel q.2 t fs) with
    | [] => .error .parentNotFound
    | [q] => .ok q.1
    | _ :: _ :: _ => .error .ambiguousSelector

/-- Bind a promise token; promises are write-once within a pass. -/
def bindPromise (st : PState) : Option String → Nat → Except DErr PState
  | none, _ => .ok st
  | some tk, i =>
    if (getA st.promises tk).isSome then .error (.duplicatePromise tk)
    else .ok { st with promises := st.promises ++ [(tk, i)] }

/-- Modelled from the spec: one `extend` entry (spec 4.5 step 3,
insert-into-collection): a new object is constructed into an owning
collection with a freshly allocated identifier; a reference entry only adds
a link record to a non-owning reference list (spec 4.3: links never
duplicate content).  A promise reference is stored symbolically, to be
resolved at end of pass. -/
def applyExt (mm : MM) (pid : Nat) (coll : String) (st : PState) :
    ExtEntry → Except DErr PState
  | .newObj t a pr =>
    if mm coll then
      let id := st.g.nextId
      let g1 := addE st.g id ⟨t, a, [], []⟩
      let g2 := updE { g1 with nextId := g1.nextId + 1 } pid
        (fun pe => { pe with owned := updA pe.owned coll [] (fun l => l ++ [id]) })
      bindPromise { st with g := g2 } pr id
    else .error .typeMismatch
  | .refId i =>
    if mm coll then .error .typeMismatch
    else if (lookupE st.g i).isSome then
      let g' := updE st.g pid
        (fun pe => { pe with refs := updA pe.refs coll [] (fun l => l ++ [.res i]) })
      .ok { st with g := g' }
    else .error .targetNotFound
  | .refPromise tk =>
    if mm coll then .error .typeMismatch
    else
      let g' := updE st.g pid
        (fun pe => { pe with refs := updA pe.refs coll [] (fun l => l ++ [.prom tk]) })
      .ok { st with g := g' }

def findChild (g : Graph) (kids : List Nat) (fs : List (String × String)) : Option Nat :=
  kids.find? (fun c =>
    match lookupE g c with
    | some e => matchesFind e fs
    | none => false)

/-- Modelled from the spec: `sync` — find-or-create-and-set (spec 4.5
step 3): run the predicate search over the target collection first; if
found, apply only the `set` sub-instructions to the existing element; if
not, create a new element from the find attributes and then apply the `set`
sub-instructions; either path then resolves the element's `promise_id`. -/
def applySync (mm : MM) (pid : Nat) (coll : String) (fs vals : List (String × String))
    (pr : Option String) (st : PState) : Except DErr PState :=
  if mm coll then
    match lookupE st.g pid with
    | none => .error .parentNotFound
    | some pe =>
      match findChild st.g ((getA pe.owned coll).getD []) fs with
      | some c =>
        let g1 := updE st.g c (fun ce => { ce with attrs := applyKVs ce.attrs vals })
        bindPromise { st with g := g1 } pr c
      | none =>
        let id := st.g.nextId
        let g1 := addE st.g id ⟨"", applyKVs (applyKVs [] fs) vals, [], []⟩
        let g2 := updE { g1 with nextId := g1.nextId + 1 } pid
          (fun pe2 => { pe2 with owned := updA pe2.owned coll [] (fun l => l ++ [id]) })
        bindPromise { st with g := g2 } pr id
  else .error .typeMismatch

def maxId (g : Graph) : Nat := g.elems.foldl (fun acc q => max acc q.1) 0

def childIds (g : Graph) (i : Nat) : List Nat :=
  match lookupE g i with
  | none => []
  | some e => (e.owned.map (·.2)).flatten

/-- The identifiers destroyed when fully destroying `c`: `c` and everything
reachable from it through owning collections (fuel-based; child identifiers
are strictly larger than their owner's in a well-formed arena, so
`maxId + 1` fuel always suffices). -/
def collectDesc (g : Graph) : Nat → Nat → List Nat
  | 0, c => [c]
  | fuel + 1, c => c :: ((childIds g c).map (collectDesc g fuel)).flatten

/-- Modelled from the spec: one `delete` target (spec 4.5 step 3,
delete-from-collection): under an owning collection the element is fully
destroyed (removed from the identity cache together with everything it
exclusively owns); under a non-owning reference list only the link record is
removed.  Per the documentation, objects to be deleted can only be selected
by their UUID; any other target encoding is unsupported. -/
def applyDel (mm : MM) (pid : Nat) (coll : String) (st : PState) :
    DelTarget → Except DErr PState
  | .byFind _ => .error .unsupportedDeleteTarget
  | .byId c =>
    match lookupE st.g pid with
    | none => .error .parentNotFound
    | some pe =>
      if mm coll then
        let kids := (getA pe.owned coll).getD []
        if c ∈ kids then
          let dset := collectDesc st.g (maxId st.g + 1) c
          let g1 := updE st.g pid
            (fun pe2 => { pe2 with owned := setA pe2.owned coll (kids.erase c) })
          .ok { st with g := { g1 with elems := g1.elems.filter (fun q => !(q.1 ∈ dset)) } }
        else .error .targetNotFound
      else
        let rs := (getA pe.refs coll).getD []
        if PRef.res c ∈ rs then
          let g' := updE st.g pid
            (fun pe2 => { pe2 with refs := setA pe2.refs coll (rs.erase (.res c)) })
          .ok { st with g := g' }
        else .error .targetNotFound

def foldE (f : PState → α → Except DErr PState) : PState → List α → Except DErr PState
  | st, [] => .ok st
  | st, x :: r =>
    match f st x with
    | .error e => .error e
    | .ok st' => foldE f st' r

def applyOp (mm : MM) (pid : Nat) (st : PState) : Op → Except DErr PState
  | .extend coll entries => foldE (fun st' en => applyExt mm pid coll st' en) st entries
  | .setAttr k v =>
    .ok { st with g := updE st.g pid (fun e => { e with attrs := setA e.attrs k v }) }
  | .sync coll fs vals pr => applySync mm pid coll fs vals pr st
  | .delete coll targets => foldE (fun st' tg => applyDel mm pid coll st' tg) st targets

/-- Modelled from the spec: one instruction (spec 4.5 steps 2-3): resolve
the parent selector once, then apply its operations in document order. -/
def stepInstr (mm : MM) (st : PState) (i : Instr) : Except DErr PState :=
  match resolveSelector st.g i.parent with
  | .error e => .error e
  | .ok pid => foldE (fun st' op => applyOp mm pid st' op) st i.ops

def foldInstrs (mm : MM) : PState → List Instr → Except DErr PState
  | st, [] => .ok st
  | st, i :: r =>
    match stepInstr mm st i with
    | .error e => .error e
    | .ok st' => foldInstrs mm st' r

def resolveRef (binds : List (String × Nat)) : PRef → Except DErr PRef
  | .res i => .ok (.res i)
  | .prom tk =>
    match getA binds tk with
    | some i => .ok (.res i)
    | none => .error (.unresolvedPromise tk)

def resolveRefList (binds : List (String × Nat)) : List PRef → Except DErr (List PRef)
  | [] => .ok []
  | r :: rs =>
    match resolveRef binds r with
    | .error e => .error e
    | .ok r' =>
      match resolveRefList binds rs with
      | .error e => .error e
      | .ok rs' => .ok (r' :: rs')

def resolveColls (binds : List (String × Nat)) :
    List (String × List PRef) → Except DErr (List (String × List PRef))
  | [] => .ok []
  | (c, rs) :: rest =>
    match resolveRefList binds rs with
    | .error e => .error e
    | .ok rs' =>
      match resolveColls binds rest with
      | .error e => .error e
      | .ok rest' => .ok ((c, rs') :: rest')

def resolveElems (binds : List (String × Nat)) :
    List (Nat × DElem) → Except DErr (List (Nat × DElem))
  | [] => .ok []
  | (i, e) :: rest =>
    match resolveColls binds e.refs with
    | .error er => .error er
    | .ok refs' =>
      match resolveElems binds rest with
      | .error er => .error er
      | .ok rest' => .ok ((i, { e with refs := refs' }) :: rest')

/-- Modelled from the spec: end-of-pass promise resolution (spec 4.5
step 4): every symbolic promise reference in the graph is replaced by the
bound identifier; an unbound token fails the whole batch. -/
def resolvePromises (binds : List (String × Nat)) (g : Graph) : Except DErr Graph :=
  match resolveElems binds g.elems with
  | .error e => .error e
  | .ok es => .ok { g with elems := es }

/-- Modelled from the spec: `capellambse.decl.apply` — apply a whole batch
in document order, then resolve all promises (spec 4.5). -/
def applyBatch (mm : MM) (g : Graph) (b : List Instr) : Except DErr Graph :=
  match foldInstrs mm ⟨g, []⟩ b with
  | .error e => .error e
  | .ok st => resolvePromises st.promises st.g

/-- Modelled from the spec: the commit discipline (spec 4.5 step 5): the
engine returns the mutated graph and marks the batch applied only when
every instruction succeeded and every promise resolved; otherwise the
in-progress state is discarded and the committed graph is the original. -/
def applyReport (mm : MM) (g : Graph) (b : List Instr) : Graph × Bool :=
  match applyBatch mm g b with
  | .ok g' => (g', true)
  | .error _ => (g, false)

def exOk : Except ε α → Bool
  | .ok _ => true
  | .error _ => false

def noProm (rs : List PRef) : Bool :=
  rs.all (fun r =>
    match r with
    | .prom _ => false
    | .res _ => true)

/-- Well-formedness of a committed graph: distinct identifiers, the
allocation counter above every live identifier, every owned child live with
an identifier strictly larger than its owner's (arena allocation order),
and no unresolved promise left in any reference list. -/
def wfG (g : Graph) : Bool :=
  noDupKeys g.elems &&
  g.elems.all (fun q =>
    decide (q.1 < g.nextId) &&
    q.2.owned.all (fun cl => cl.2.all (fun c => decide (q.1 < c) && (lookupE g c).isSome)) &&
    q.2.refs.all (fun cl => noProm cl.2))

/-- Ownership reachability: `OwnsPath g a b` holds when `b` is `a` itself or
is reachable from `a` through owning collections. -/
inductive OwnsPath (g : Graph) : Nat → Nat → Prop
  | refl (i : Nat) : OwnsPath g i i
  | step {a b c : Nat} : b ∈ childIds g a → OwnsPath g b c → OwnsPath g a c

/-- No unresolved promise left anywhere in the graph. -/
def noPromG (g : Graph) : Bool :=
  g.elems.all (fun q => q.2.refs.all (fun cl => noProm cl.2))

/-- The graph produced by a non-owning delete (the link-erasure branch of
`applyDel`), named for the proofs below. -/
def delRefResult (g : Graph) (p : Nat) (coll : String) (c : Nat) (pe : DElem) : Graph :=
  updE g p (fun pe2 =>
    { pe2 with refs := setA pe2.refs coll (((getA pe.refs coll).getD []).erase (.res c)) })

/-- The graph produced by an owning delete (the destroy branch of
`applyDel`), named for the proofs below. -/
def delOwnResult (g : Graph) (p : Nat) (coll : String) (c : Nat) (pe : DElem) : Graph :=
  { elems :=
      (updE g p (fun pe2 =>
        { pe2 with owned := setA pe2.owned coll (((getA pe.owned coll).getD []).erase c) })).elems.filter
        (fun q => !(q.1 ∈ collectDesc g (maxId g + 1) c)),
    nextId := g.nextId }

/-- A concrete meta-model classification: only `functions` collections are
strict containment; everything else is a non-owning reference list. -/
def mm0 : MM := fun c => decide (c = "functions")

/-- A concrete starting graph: a root component (0) owning function 1 in its
`functions` collection and also referencing it from the non-owning
`allocated_functions` list; function 1 owns a nested function 2. -/
def g0 : Graph :=
  { elems :=
      [(0, ⟨"LogicalComponent", [("name", "Hogwarts")],
            [("functions", [1])],
            [("allocated_functions", [.res 1])]⟩),
       (1, ⟨"LogicalFunction", [("name", "produce Great Wizards")],
            [("functions", [2])], []⟩),
       (2, ⟨"LogicalFunction", [("name", "nested")], [], []⟩)],
    nextId := 3 }

/-- A valid first instruction: rename the root component. -/
def preInstr : Instr := ⟨.byId 0, [.setAttr "name" "Hogwarts School"]⟩

/-- A failing instruction: its parent does not exist. -/
def badInstr : Instr := ⟨.byId 99, []⟩

/-- The pass state after `preInstr` alone has been applied to `g0`. -/
def stMidC : PState :=
  ⟨{ elems :=
      [(0, ⟨"LogicalComponent", [("name", "Hogwarts School")],
            [("functions", [1])],
            [("allocated_functions", [.res 1])]⟩),
       (1, ⟨"LogicalFunction", [("name", "produce Great Wizards")],
            [("functions", [2])], []⟩),
       (2, ⟨"LogicalFunction", [("name", "nested")], [], []⟩)],
     nextId := 3 }, []⟩

/-- A delete instruction whose target is a predicate instead of a UUID. -/
def findDelInstr : Instr :=
  ⟨.byId 0, [.delete "functions" [.byFind [("name", "produce Great Wizards")]]]⟩

end Decl


/-!
# Theorems

The remainder of the file proves the specification's testable properties
against the models above.
-/

namespace Exs

theorem parseOne_stopHead (fuel : Nat) (l : List Line) (h : stopHead l = true) :
    parseOne fuel l = none := by
  match fuel, l with
  | 0, _ => rfl
  | _ + 1, [] => rfl
  | _ + 1, ln :: r =>
    simp only [stopHead] at h
    match hk : ln.kind with
    | .closeTag t => simp [parseOne, hk]
    | .openTag t a => rw [hk] at h; simp at h
    | .selfClose t a => rw [hk] at h; simp at h

/-- Core round-trip lemma: with enough fuel, parsing a serialized element
(or sibling run) consumes exactly it and returns the original tree(s). -/
theorem parse_serialize (fuel : Nat) :
    (∀ t d rest, needT t ≤ fuel →
      parseOne fuel (serialize d t ++ rest) = some (t, rest)) ∧
    (∀ cs d rest, needL cs ≤ fuel → stopHead rest = true →
      parseMany fuel (serializeList d cs ++ rest) = (cs, rest)) := by
  induction fuel using Nat.strong_induction_on with
  | _ fuel ih =>
    constructor
    · intro t d rest hfuel
      match t with
      | .node tg a [] =>
        simp only [needT, needL] at hfuel
        match fuel, hfuel with
        | f + 1, _ => simp [serialize, parseOne]
      | .node tg a (c :: cs) =>
        simp only [needT] at hfuel
        match fuel, hfuel with
        | f + 1, hfuel =>
          have hL : needL (c :: cs) ≤ f := by omega
          have hmany := (ih f (Nat.lt_succ_self f)).2 (c :: cs) (d + 1)
            (⟨d, .closeTag tg⟩ :: rest) hL (by simp [stopHead])
          simp only [serialize, List.cons_append, List.append_assoc,
            List.singleton_append] at *
          simp [parseOne, hmany]
    · intro cs d rest hfuel hstop
      match cs with
      | [] =>
        match fuel with
        | 0 => simp [serializeList, parseMany]
        | f + 1 =>
          simp [serializeList, parseMany, parseOne_stopHead f rest hstop]
      | c :: cs' =>
        simp only [needL] at hfuel
        match fuel, hfuel with
        | f + 1, hfuel =>
          have h1 : needT c ≤ f := by omega
          have h2 : needL cs' ≤ f := by omega
          have hone := (ih f (Nat.lt_succ_self f)).1 c d
            (serializeList d cs' ++ rest) h1
          have hmany := (ih f (Nat.lt_succ_self f)).2 cs' d rest h2 hstop
          simp only [serializeList, List.append_assoc] at *
          simp [parseMany, hone, hmany]

mutual

theorem needT_le_len : ∀ (d : Nat) (t : XTree),
    needT t + 1 ≤ 2 * (serialize d t).length
  | d, .node tg a [] => by simp [needT, needL, serialize]
  | d, .node tg a (c :: cs) => by
    have h := needL_le_len (d + 1) (c :: cs)
    simp only [needT, serialize, List.length_cons, List.length_append,
      List.length_singleton] at *
    omega

theorem needL_le_len : ∀ (d : Nat) (cs : List XTree),
    needL cs ≤ 2 * (serializeList d cs).length + 2
  | _, [] => by simp [needL, serializeList]
  | d, c :: cs => by
    have h1 := needT_le_len d c
    have h2 := needL_le_len d cs
    simp only [needL, serializeList, List.length_append] at *
    omega

end

/-- Round trip on canonical output: loading a serialized fragment gives back
exactly the original tree. -/
theorem load_serializeDoc (t : XTree) : load (serializeDoc t) = some t := by
  have hfuel : needT t ≤ 2 * (serializeDoc t).length := by
    have := needT_le_len 0 t
    simp only [serializeDoc] at *
    omega
  have h := (parse_serialize (2 * (serializeDoc t).length)).1 t 0 [] hfuel
  simp only [List.append_nil, serializeDoc] at h
  simp [load, serializeDoc, h]

end Exs

/-- C1 (amended): for every fragment in the serializer's canonical output
format — in particular every fragment previously written by Capella or by
this serializer — loading and serializing with no intervening mutation
reproduces the fragment byte-for-byte, attribute order preserved exactly as
first observed rather than sorted. -/
theorem c1_round_trip_canonical (f : List Exs.Line) (h : ∃ t, f = Exs.serializeDoc t) :
    ∃ t', Exs.load f = some t' ∧ Exs.serializeDoc t' = f := by
  obtain ⟨t, rfl⟩ := h
  exact ⟨t, Exs.load_serializeDoc t, rfl⟩

/-- C1 counterexample: the fragment `fBad` differs from canonical output only
in the indentation of its inner line; it loads successfully (whitespace is
insignificant to the XML parser), but serializing the loaded tree yields the
canonical form, which is not byte-identical to `fBad`.  The claim's
round-trip identity therefore fails for loadable fragments that are not in
the tool's own output format. -/
theorem c1_counterexample :
    Exs.load Exs.fBad = some Exs.tEx ∧ Exs.serializeDoc Exs.tEx ≠ Exs.fBad := by
  constructor
  · rfl
  · decide

/-- C1 witness: the amended round-trip theorem applied to the concrete
canonical fragment `fCanon`. -/
theorem c1_witness :
    (∃ t, Exs.fCanon = Exs.serializeDoc t) ∧
    ∃ t', Exs.load Exs.fCanon = some t' ∧ Exs.serializeDoc t' = Exs.fCanon :=
  ⟨⟨Exs.tEx, rfl⟩, c1_round_trip_canonical Exs.fCanon ⟨Exs.tEx, rfl⟩⟩

namespace UuidGen

theorem generate_uuid_fresh (seed : Nat) (cache : List Nat) :
    ∀ (fuel n id n' : Nat),
      generate_uuid seed cache n fuel = some (id, n') → id ∉ cache := by
  intro fuel
  induction fuel with
  | zero => intro n id n' h; simp [generate_uuid] at h
  | succ f ihf =>
    intro n id n' h
    by_cases hc : prng seed n ∈ cache
    · rw [generate_uuid, if_pos hc] at h
      exact ihf (n + 1) id n' h
    · rw [generate_uuid, if_neg hc] at h
      simp only [Option.some.injEq, Prod.mk.injEq] at h
      obtain ⟨h3, h4⟩ := h
      subst h3
      exact hc

theorem generate_uuid_no_collision (seed : Nat) (cache : List Nat) (n fuel : Nat)
    (h : prng seed n ∉ cache) :
    generate_uuid seed cache n (fuel + 1) = some (prng seed n, n + 1) := by
  rw [generate_uuid, if_neg h]

theorem generate_uuid_requery (seed : Nat) (cache : List Nat) (n fuel : Nat)
    (h : prng seed n ∈ cache) :
    generate_uuid seed cache n (fuel + 1) = generate_uuid seed cache (n + 1) fuel := by
  rw [generate_uuid, if_pos h]

theorem genRun_no_collision (seed : Nat) :
    ∀ (count : Nat) (cache : List Nat) (n : Nat),
      (∀ i, i < count → prng seed (n + i) ∉ cache) →
      (∀ i j, i < j → j < count → prng seed (n + i) ≠ prng seed (n + j)) →
      genRun seed cache n count = naiveRun seed n count := by
  intro count
  induction count with
  | zero => intro cache n _ _; rfl
  | succ c ihc =>
    intro cache n h1 h2
    have hfresh : prng seed n ∉ cache := by
      have := h1 0 (Nat.succ_pos c); simpa using this
    rw [genRun, generate_uuid_no_collision seed cache n _ hfresh, naiveRun]
    show prng seed n :: genRun seed (prng seed n :: cache) (n + 1) c =
      prng seed n :: naiveRun seed (n + 1) c
    congr 1
    apply ihc
    · intro i hi
      simp only [List.mem_cons, not_or]
      constructor
      · have := h2 0 (i + 1) (Nat.succ_pos i) (by omega)
        simp only [Nat.add_zero] at this
        have harith : n + 1 + i = n + (i + 1) := by omega
        rw [harith]
        exact fun hh => this hh.symm
      · have := h1 (i + 1) (by omega)
        have harith : n + 1 + i = n + (i + 1) := by omega
        rw [harith]; exact this
    · intro i j hij hj
      have harith1 : n + 1 + i = n + (i + 1) := by omega
      have harith2 : n + 1 + j = n + (j + 1) := by omega
      rw [harith1, harith2]
      exact h2 (i + 1) (j + 1) (by omega) (by omega)

end UuidGen

/-- C7: identifier generation is a pure function of the configured seed and
the creation order, so two runs creating elements in identical order from
the same seed generate identical identifier sequences; every candidate
identifier is checked against the identity cache before being returned,
the generator is re-queried on a collision, and when no collision occurs
the produced sequence is exactly the naive PRNG stream (so a seeded run can
diverge from the naive expectation only when a collision occurs). -/
theorem c7_uuid_generation :
    (∀ s1 s2 (cache : List Nat) (n count : Nat), s1 = s2 →
      UuidGen.genRun s1 cache n count = UuidGen.genRun s2 cache n count) ∧
    (∀ seed (cache : List Nat) (fuel n id n' : Nat),
      UuidGen.generate_uuid seed cache n fuel = some (id, n') → id ∉ cache) ∧
    (∀ seed (cache : List Nat) (n fuel : Nat), UuidGen.prng seed n ∉ cache →
      UuidGen.generate_uuid seed cache n (fuel + 1) =
        some (UuidGen.prng seed n, n + 1)) ∧
    (∀ seed (cache : List Nat) (n fuel : Nat), UuidGen.prng seed n ∈ cache →
      UuidGen.generate_uuid seed cache n (fuel + 1) =
        UuidGen.generate_uuid seed cache (n + 1) fuel) ∧
    (∀ seed (count : Nat) (cache : List Nat) (n : Nat),
      (∀ i, i < count → UuidGen.prng seed (n + i) ∉ cache) →
      (∀ i j, i < j → j < count →
        UuidGen.prng seed (n + i) ≠ UuidGen.prng seed (n + j)) →
      UuidGen.genRun seed cache n count = UuidGen.naiveRun seed n count) :=
  ⟨fun _ _ cache n count h => by rw [h],
   fun seed cache fuel n id n' h => UuidGen.generate_uuid_fresh seed cache fuel n id n' h,
   fun seed cache n fuel h => UuidGen.generate_uuid_no_collision seed cache n fuel h,
   fun seed cache n fuel h => UuidGen.generate_uuid_requery seed cache n fuel h,
   fun seed count cache n h1 h2 => UuidGen.genRun_no_collision seed count cache n h1 h2⟩

/-- C7 witness: the generation theorem applied at a concrete seed and cache:
the first candidate of seed 7 collides with the pre-seeded cache entry, the
generator is re-queried and returns the next fresh candidate; a two-element
run over an empty cache reproduces the naive stream. -/
theorem c7_witness :
    (UuidGen.generate_uuid 7 [UuidGen.prng 7 0] 0 2 =
      UuidGen.generate_uuid 7 [UuidGen.prng 7 0] 1 1) ∧
    (UuidGen.generate_uuid 7 [UuidGen.prng 7 0] 1 1 =
      some (UuidGen.prng 7 1, 2)) ∧
    UuidGen.genRun 5 [] 0 2 = UuidGen.naiveRun 5 0 2 :=
  ⟨c7_uuid_generation.2.2.2.1 7 [UuidGen.prng 7 0] 0 1 (by decide),
   c7_uuid_generation.2.2.1 7 [UuidGen.prng 7 0] 1 0 (by decide),
   c7_uuid_generation.2.2.2.2 5 2 [] 0
     (by intro i _ hmem; exact absurd hmem (List.not_mem_nil _))
     (by
       intro i j hij hj
       have hj1 : j = 1 := by omega
       have hi0 : i = 0 := by omega
       subst hj1; subst hi0
       decide)⟩

theorem getA_mem [DecidableEq K] :
    ∀ {l : List (K × V)} {k : K} {v : V}, getA l k = some v → (k, v) ∈ l := by
  intro l
  induction l with
  | nil => intro k v h; simp [getA] at h
  | cons q r ihr =>
    intro k v h
    rw [getA] at h
    by_cases hk : q.1 = k
    · rw [if_pos hk] at h
      simp only [Option.some.injEq] at h
      subst h; subst hk
      simp
    · rw [if_neg hk] at h
      exact List.mem_cons_of_mem q (ihr h)

namespace Frag

theorem wf_parent (m : FModel) (hwf : wfF m = true) (h p : Nat)
    (hlp : logicalParent m h = some p) : p < h ∧ liveF m p = true := by
  have hget : ∃ e, getA m.elems h = some e := by
    rw [logicalParent] at hlp
    match hg : getA m.elems h with
    | none => rw [hg] at hlp; simp at hlp
    | some e => exact ⟨e, rfl⟩
  obtain ⟨e, hget⟩ := hget
  have hmem : (h, e) ∈ m.elems := getA_mem hget
  rw [wfF, Bool.and_eq_true, List.all_eq_true] at hwf
  have := hwf.2 (h, e) hmem
  simp only at this
  rw [hlp] at this
  rw [Bool.and_eq_true, decide_eq_true_iff] at this
  exact this

theorem ancestorsF_stable (m : FModel) (hwf : wfF m = true) :
    ∀ h fuel, h < fuel → ancestorsF m fuel h = iterancestors m h := by
  intro h
  induction h using Nat.strong_induction_on with
  | _ h ih =>
    intro fuel hfuel
    match fuel, hfuel with
    | f + 1, hfuel =>
      rw [iterancestors, ancestorsF, ancestorsF]
      cases hlp : logicalParent m h with
      | none => simp only [hlp]
      | some p =>
        obtain ⟨hph, _⟩ := wf_parent m hwf h p hlp
        have h1 : ancestorsF m f p = iterancestors m p := ih p hph f (by omega)
        have h2 : ancestorsF m h p = iterancestors m p := ih p hph h hph
        simp only [hlp, h1, h2]

/-- The defining recurrence of the traversal on well-formed models. -/
theorem iterancestors_rec (m : FModel) (hwf : wfF m = true) (h : Nat) :
    iterancestors m h =
      match logicalParent m h with
      | none => []
      | some p => p :: iterancestors m p := by
  rw [iterancestors, ancestorsF]
  cases hlp : logicalParent m h with
  | none => simp only [hlp]
  | some p =>
    obtain ⟨hph, _⟩ := wf_parent m hwf h p hlp
    simp only [hlp, ancestorsF_stable m hwf p h hph]

theorem iterancestors_lt_live (m : FModel) (hwf : wfF m = true) :
    ∀ h a, a ∈ iterancestors m h → a < h ∧ liveF m a = true := by
  intro h
  induction h using Nat.strong_induction_on with
  | _ h ih =>
    intro a ha
    rw [iterancestors_rec m hwf h] at ha
    match hlp : logicalParent m h with
    | none => rw [hlp] at ha; simp at ha
    | some p =>
      rw [hlp] at ha
      obtain ⟨hph, hlive⟩ := wf_parent m hwf h p hlp
      rcases List.mem_cons.mp ha with rfl | ha'
      · exact ⟨hph, hlive⟩
      · obtain ⟨hlt, hl⟩ := ih p hph a ha'
        exact ⟨Nat.lt_trans hlt hph, hl⟩

theorem iterancestors_last_root (m : FModel) (hwf : wfF m = true) :
    ∀ h, iterancestors m h ≠ [] →
      ∃ r er, (iterancestors m h).getLast? = some r ∧
        getA m.elems r = some er ∧ er.physParent = none ∧
        logicalParent m r = none := by
  intro h
  induction h using Nat.strong_induction_on with
  | _ h ih =>
    intro hne
    rw [iterancestors_rec m hwf h] at hne ⊢
    cases hlp : logicalParent m h with
    | none => simp only [hlp] at hne; simp at hne
    | some p =>
      simp only [hlp] at hne ⊢
      obtain ⟨hph, hlive⟩ := wf_parent m hwf h p hlp
      by_cases hp : iterancestors m p = []
      · rw [hp]
        have hlpp : logicalParent m p = none := by
          cases hq : logicalParent m p with
          | none => rfl
          | some q =>
            rw [iterancestors_rec m hwf p] at hp
            simp only [hq] at hp
            simp at hp
        obtain ⟨ep, hep⟩ : ∃ ep, getA m.elems p = some ep := by
          rw [liveF] at hlive
          cases hg : getA m.elems p with
          | none => rw [hg] at hlive; simp at hlive
          | some ep => exact ⟨ep, rfl⟩
        refine ⟨p, ep, by simp, hep, ?_, hlpp⟩
        cases hpp : ep.physParent with
        | none => rfl
        | some q =>
          rw [logicalParent] at hlpp
          simp only [hep, hpp] at hlpp
          exact hlpp
      · obtain ⟨r, er, hlast, hger, hpp, hlpr⟩ := ih p hph hp
        refine ⟨r, er, ?_, hger, hpp, hlpr⟩
        have h1 : r ∈ (iterancestors m p).getLast? := Option.mem_def.mpr hlast
        exact Option.mem_def.mp (List.mem_getLast?_cons h1)

theorem iterancestors_boundary (m : FModel) (hwf : wfF m = true)
    (h p : Nat) (e : FElem) (hget : getA m.elems h = some e)
    (hphys : e.physParent = none) (hback : getA m.backrefs h = some p) :
    iterancestors m h = p :: iterancestors m p := by
  have hlp : logicalParent m h = some p := by
    rw [logicalParent]
    simp only [hget, hphys, hback]
  rw [iterancestors_rec m hwf h, hlp]

end Frag

/-- C8: on a well-formed model the ancestors traversal is a finite sequence
that begins at the element's immediate (logical) parent, visits only live
elements with strictly decreasing handles (hence is finite and cycle-free),
ends at a fragment root with no further logical parent, and — when the
element is the physical root of its fragment (no physical parent) but a
back-reference was recorded at load time — continues across the fragment
boundary through that back-reference instead of stopping. -/
theorem c8_iterancestors (m : Frag.FModel) (hwf : Frag.wfF m = true) (h : Nat) :
    (∀ p, Frag.logicalParent m h = some p →
      (Frag.iterancestors m h).head? = some p) ∧
    (∀ a, a ∈ Frag.iterancestors m h → a < h ∧ Frag.liveF m a = true) ∧
    (Frag.iterancestors m h ≠ [] →
      ∃ r er, (Frag.iterancestors m h).getLast? = some r ∧
        getA m.elems r = some er ∧ er.physParent = none ∧
        Frag.logicalParent m r = none) ∧
    (∀ p e, getA m.elems h = some e → e.physParent = none →
      getA m.backrefs h = some p →
      Frag.iterancestors m h = p :: Frag.iterancestors m p) := by
  refine ⟨?_, ?_, ?_, ?_⟩
  · intro p hlp
    rw [Frag.iterancestors_rec m hwf h, hlp]
    rfl
  · exact fun a ha => Frag.iterancestors_lt_live m hwf h a ha
  · exact Frag.iterancestors_last_root m hwf h
  · exact fun p e hget hphys hback =>
      Frag.iterancestors_boundary m hwf h p e hget hphys hback

/-- C8 witness: the traversal theorem applied to the concrete two-fragment
model: element 3 sits deep inside fragment B, whose physical root 2 has no
physical parent; walking ancestors from 3 continues past 2 into fragment
A's elements 1 and 0. -/
theorem c8_witness :
    Frag.wfF Frag.mEx = true ∧
    Frag.iterancestors Frag.mEx 3 = [2, 1, 0] ∧
    Frag.iterancestors Frag.mEx 2 = 1 :: Frag.iterancestors Frag.mEx 1 ∧
    (Frag.iterancestors Frag.mEx 3).getLast? = some 0 :=
  ⟨by decide, by decide,
   (c8_iterancestors Frag.mEx (by decide) 2).2.2.2 1 ⟨none⟩ (by decide) rfl (by decide),
   by decide⟩

/-! Generic association-list lemmas shared by the loader and engine proofs. -/

theorem getA_append_some [DecidableEq K] {l1 : List (K × V)} {k : K} {v : V}
    (h : getA l1 k = some v) (l2 : List (K × V)) : getA (l1 ++ l2) k = some v := by
  induction l1 with
  | nil => simp [getA] at h
  | cons q r ih =>
    rw [getA] at h
    rw [List.cons_append, getA]
    by_cases hk : q.1 = k
    · rwa [if_pos hk] at h ⊢
    · rw [if_neg hk] at h ⊢
      exact ih h

theorem getA_append_none [DecidableEq K] {l1 : List (K × V)} {k : K}
    (h : getA l1 k = none) (l2 : List (K × V)) : getA (l1 ++ l2) k = getA l2 k := by
  induction l1 with
  | nil => simp
  | cons q r ih =>
    rw [getA] at h
    rw [List.cons_append, getA]
    by_cases hk : q.1 = k
    · rw [if_pos hk] at h; simp at h
    · rw [if_neg hk] at h ⊢
      exact ih h

theorem getA_eq_none_iff [DecidableEq K] :
    ∀ {l : List (K × V)} {k : K}, getA l k = none ↔ ∀ v, (k, v) ∉ l := by
  intro l
  induction l with
  | nil => intro k; simp [getA]
  | cons q r ih =>
    intro k
    rw [getA]
    by_cases hk : q.1 = k
    · rw [if_pos hk]
      subst hk
      constructor
      · intro h; simp at h
      · intro hall
        exfalso
        exact hall q.2 (by simp)
    · rw [if_neg hk, ih]
      constructor
      · intro hall v hmem
        rcases List.mem_cons.mp hmem with heq | hmem'
        · apply hk
          rw [← heq]
        · exact hall v hmem'
      · intro hall v hmem
        exact hall v (List.mem_cons_of_mem q hmem)

theorem getA_filter_sub [DecidableEq K] (p : K × V → Bool) {l : List (K × V)} {k : K}
    (h : getA l k = none) : getA (l.filter p) k = none := by
  rw [getA_eq_none_iff] at h ⊢
  intro v hmem
  exact h v (List.mem_of_mem_filter hmem)

theorem getA_filter_key [DecidableEq K] (p : K → Bool) :
    ∀ (l : List (K × V)) (k : K),
      getA (l.filter (fun q => p q.1)) k = if p k then getA l k else none := by
  intro l
  induction l with
  | nil => intro k; simp [getA]
  | cons q r ih =>
    intro k
    rw [List.filter_cons]
    by_cases hk : q.1 = k
    · subst hk
      by_cases hp : p q.1
      · rw [if_pos (by simpa using hp), getA, if_pos rfl, if_pos hp, getA, if_pos rfl]
      · rw [if_neg (by simpa using hp), ih q.1, if_neg hp, if_neg hp]
    · have hgr : getA (q :: r) k = getA r k := by rw [getA, if_neg hk]
      by_cases hp : p q.1
      · rw [if_pos (by simpa using hp), getA, if_neg hk, ih k, hgr]
      · rw [if_neg (by simpa using hp), ih k, hgr]

theorem noDupKeys_head_none [DecidableEq K] {q : K × V} {r : List (K × V)}
    (hnd : noDupKeys (q :: r) = true) : getA r q.1 = none := by
  rw [noDupKeys, Bool.and_eq_true] at hnd
  rw [getA_eq_none_iff]
  intro v hmem
  have : r.any (fun q' => q'.1 = q.1) = true :=
    List.any_eq_true.mpr ⟨(q.1, v), hmem, by simp⟩
  simp only [Bool.not_eq_true'] at hnd
  rw [hnd.1] at this
  simp at this

theorem noDupKeys_tail [DecidableEq K] {q : K × V} {r : List (K × V)}
    (hnd : noDupKeys (q :: r) = true) : noDupKeys r = true := by
  rw [noDupKeys, Bool.and_eq_true] at hnd
  exact hnd.2

theorem getA_of_mem_nodup [DecidableEq K] :
    ∀ {l : List (K × V)} {k : K} {v : V},
      noDupKeys l = true → (k, v) ∈ l → getA l k = some v := by
  intro l
  induction l with
  | nil => intro k v _ hmem; simp at hmem
  | cons q r ih =>
    intro k v hnd hmem
    rcases List.mem_cons.mp hmem with rfl | hmem'
    · rw [getA, if_pos rfl]
    · rw [getA]
      by_cases hk : q.1 = k
      · exfalso
        have hnone : getA r q.1 = none := noDupKeys_head_none hnd
        rw [getA_eq_none_iff] at hnone
        subst hk
        exact hnone v hmem'
      · rw [if_neg hk]
        exact ih (noDupKeys_tail hnd) hmem'

theorem getA_filter_of_nodup [DecidableEq K] (p : K × V → Bool) :
    ∀ {l : List (K × V)} {k : K} {v : V},
      noDupKeys l = true → getA l k = some v →
      getA (l.filter p) k = if p (k, v) then some v else none := by
  intro l
  induction l with
  | nil => intro k v _ h; simp [getA] at h
  | cons q r ih =>
    intro k v hnd h
    rw [getA] at h
    rw [List.filter_cons]
    by_cases hk : q.1 = k
    · rw [if_pos hk] at h
      simp only [Option.some.injEq] at h
      subst h
      have hq : q = (k, q.2) := by rw [← hk]
      by_cases hp : p q
      · rw [if_pos (by simpa using hp), getA, if_pos hk, if_pos (by rw [← hq]; exact hp)]
      · rw [if_neg (by simpa using hp), if_neg (by rw [← hq]; simpa using hp)]
        exact getA_filter_sub p (by rw [← hk]; exact noDupKeys_head_none hnd)
    · rw [if_neg hk] at h
      by_cases hp : p q
      · rw [if_pos (by simpa using hp), getA, if_neg hk]
        exact ih (noDupKeys_tail hnd) h
      · rw [if_neg (by simpa using hp)]
        exact ih (noDupKeys_tail hnd) h

theorem noDupKeys_filter [DecidableEq K] (p : K × V → Bool) :
    ∀ {l : List (K × V)}, noDupKeys l = true → noDupKeys (l.filter p) = true := by
  intro l
  induction l with
  | nil => intro _; simp [noDupKeys]
  | cons q r ih =>
    intro hnd
    have htail := noDupKeys_tail hnd
    rw [List.filter_cons]
    by_cases hp : p q
    · rw [if_pos (by simpa using hp), noDupKeys, Bool.and_eq_true]
      refine ⟨?_, ih htail⟩
      simp only [Bool.not_eq_true']
      cases hany : (r.filter p).any (fun q' => q'.1 = q.1) with
      | false => rfl
      | true =>
        exfalso
        obtain ⟨q', hq', heq⟩ := List.any_eq_true.mp hany
        have hmem := List.mem_of_mem_filter hq'
        have hnone := noDupKeys_head_none hnd
        rw [getA_eq_none_iff] at hnone
        simp only [decide_eq_true_iff] at heq
        apply hnone q'.2
        have : q' = (q.1, q'.2) := by rw [← heq]
        rwa [this] at hmem
    · rw [if_neg (by simpa using hp)]
      exact ih htail

theorem noDupKeys_append_singleton [DecidableEq K] :
    ∀ {l : List (K × V)} {k : K} {v : V},
      noDupKeys l = true → getA l k = none → noDupKeys (l ++ [(k, v)]) = true := by
  intro l
  induction l with
  | nil => intro k v _ _; simp [noDupKeys]
  | cons q r ih =>
    intro k v hnd hget
    rw [getA] at hget
    by_cases hk : q.1 = k
    · rw [if_pos hk] at hget; simp at hget
    · rw [if_neg hk] at hget
      rw [List.cons_append, noDupKeys, Bool.and_eq_true]
      refine ⟨?_, ih (noDupKeys_tail hnd) hget⟩
      rw [List.any_append]
      simp only [Bool.not_eq_true', Bool.or_eq_false_iff]
      constructor
      · rw [noDupKeys, Bool.and_eq_true] at hnd
        simp only [Bool.not_eq_true'] at hnd
        exact hnd.1
      · simp only [List.any_cons, List.any_nil, Bool.or_false, decide_eq_false_iff_not]
        exact fun hh => hk hh.symm

namespace Loader

theorem wfL_iff (m : LModel) : wfL m = true ↔
    noDupKeys m.elems = true ∧ noDupKeys m.cache = true ∧
    (∀ h e p, (h, e) ∈ m.elems → e.parent = some p → p < h ∧ liveB m p = true) ∧
    (∀ u h, (u, h) ∈ m.cache → ∃ e, lookupH m h = some e ∧ e.uuid = some u) ∧
    (∀ h e u, (h, e) ∈ m.elems → e.uuid = some u → getA m.cache u = some h) := by
  rw [wfL]
  simp only [Bool.and_eq_true, List.all_eq_true]
  constructor
  · rintro ⟨⟨⟨⟨h1, h2⟩, h3⟩, h4⟩, h5⟩
    refine ⟨h1, h2, ?_, ?_, ?_⟩
    · intro h e p hmem hp
      have := h3 (h, e) hmem
      simp only [hp] at this
      rw [Bool.and_eq_true, decide_eq_true_iff] at this
      exact this
    · intro u hh hmem
      have := h4 (u, hh) hmem
      cases hl : lookupH m hh with
      | none => simp only [hl] at this; simp at this
      | some e =>
        simp only [hl, decide_eq_true_iff] at this
        exact ⟨e, rfl, this⟩
    · intro h e u hmem hu
      have := h5 (h, e) hmem
      simp only [hu, decide_eq_true_iff] at this
      exact this
  · rintro ⟨h1, h2, h3, h4, h5⟩
    refine ⟨⟨⟨⟨h1, h2⟩, ?_⟩, ?_⟩, ?_⟩
    · intro q hmem
      cases hp : q.2.parent with
      | none => simp
      | some p =>
        obtain ⟨hlt, hlv⟩ := h3 q.1 q.2 p hmem hp
        simp [hlt, hlv]
    · intro q hmem
      obtain ⟨e, hl, hu⟩ := h4 q.1 q.2 hmem
      simp [hl, hu]
    · intro q hmem
      cases hu : q.2.uuid with
      | none => simp
      | some u =>
        have := h5 q.1 q.2 u hmem hu
        simp [this]

theorem live_reachF (m : LModel) (hwf : wfL m = true) :
    ∀ h, liveB m h = true → ∀ fuel, h < fuel → reachF m fuel h = true := by
  intro h
  induction h using Nat.strong_induction_on with
  | _ h ih =>
    intro hlive fuel hfuel
    match fuel, hfuel with
    | f + 1, hfuel =>
      rw [reachF]
      rw [liveB] at hlive
      cases hl : lookupH m h with
      | none => rw [hl] at hlive; simp at hlive
      | some e =>
        simp only [hl]
        cases hp : e.parent with
        | none => simp
        | some p =>
          simp only [hp]
          obtain ⟨hlt, hlv⟩ :=
            ((wfL_iff m).mp hwf).2.2.1 h e p (getA_mem hl) hp
          exact ih p hlt hlv f (by omega)

theorem reachable_iff_live (m : LModel) (hwf : wfL m = true) (h : Nat) :
    reachable m h ↔ liveB m h = true := by
  constructor
  · intro hr
    rw [reachable, reachF] at hr
    rw [liveB]
    cases hl : lookupH m h with
    | none => rw [hl] at hr; simp at hr
    | some e => simp
  · intro hlive
    exact live_reachF m hwf h hlive (h + 1) (Nat.lt_succ_self h)

theorem chainF_stable (m : LModel) (hwf : wfL m = true) :
    ∀ h fuel, h < fuel → chainF m fuel h = chainF m (h + 1) h := by
  intro h
  induction h using Nat.strong_induction_on with
  | _ h ih =>
    intro fuel hfuel
    match fuel, hfuel with
    | f + 1, hfuel =>
      rw [chainF, chainF]
      cases hl : lookupH m h with
      | none => simp only [hl]
      | some e =>
        cases hp : e.parent with
        | none => simp only [hl, hp]
        | some p =>
          obtain ⟨hlt, _⟩ :=
            ((wfL_iff m).mp hwf).2.2.1 h e p (getA_mem hl) hp
          have h1 : chainF m f p = chainF m (p + 1) p := ih p hlt f (by omega)
          have h2 : chainF m h p = chainF m (p + 1) p := ih p hlt h hlt
          simp only [hl, hp, h1, h2]

theorem chainF_cons (m : LModel) {h : Nat} {e : LElem} {p : Nat}
    (hl : lookupH m h = some e) (hp : e.parent = some p) :
    chainF m (h + 1) h = p :: chainF m h p := by
  rw [chainF]
  simp only [hl, hp]

theorem mem_descSet (m : LModel) (x h : Nat) :
    x ∈ descSet m h ↔
      x = h ∨ ∃ e, (x, e) ∈ m.elems ∧ h ∈ chainF m (x + 1) x := by
  rw [descSet]
  simp only [List.mem_cons, List.mem_map, List.mem_filter]
  constructor
  · rintro (rfl | ⟨q, ⟨hq1, hq2⟩, rfl⟩)
    · exact Or.inl rfl
    · refine Or.inr ⟨q.2, hq1, ?_⟩
      simpa using hq2
  · rintro (rfl | ⟨e, hmem, hchain⟩)
    · exact Or.inl rfl
    · exact Or.inr ⟨(x, e), ⟨hmem, by simpa using hchain⟩, rfl⟩

theorem descSet_closed (m : LModel) (hwf : wfL m = true) {hd h' p' : Nat} {e' : LElem}
    (hmem : (h', e') ∈ m.elems) (hp : e'.parent = some p')
    (hnot : h' ∉ descSet m hd) : p' ∉ descSet m hd := by
  intro hpd
  apply hnot
  have hnd := ((wfL_iff m).mp hwf).1
  have hget : getA m.elems h' = some e' := getA_of_mem_nodup hnd hmem
  have ⟨hlt, _⟩ := ((wfL_iff m).mp hwf).2.2.1 h' e' p' hmem hp
  have hchain : chainF m (h' + 1) h' = p' :: chainF m (p' + 1) p' := by
    rw [chainF_cons m hget hp, chainF_stable m hwf p' h' hlt]
  rcases (mem_descSet m p' hd).mp hpd with rfl | ⟨ep, hmemp, hchainp⟩
  · refine (mem_descSet m h' p').mpr (Or.inr ⟨e', hmem, ?_⟩)
    rw [hchain]
    exact List.mem_cons_self p' _
  · refine (mem_descSet m h' hd).mpr (Or.inr ⟨e', hmem, ?_⟩)
    rw [hchain]
    exact List.mem_cons_of_mem p' hchainp

end Loader

namespace Loader

theorem insertOp_eq_some {m : LModel} {h : Nat} {u : Option String} {p : Nat}
    {m' : LModel} (hop : insertOp m h u p = some m') :
    liveB m h = false ∧ liveB m p = true ∧ p < h ∧
    ((u = none ∧ m' = { elems := m.elems ++ [(h, ⟨none, some p⟩)], cache := m.cache }) ∨
     (∃ u', u = some u' ∧ getA m.cache u' = none ∧
        m' = { elems := m.elems ++ [(h, ⟨some u', some p⟩)],
               cache := m.cache ++ [(u', h)] })) := by
  cases u with
  | none =>
    rw [insertOp] at hop
    split_ifs at hop with h1 h2 h3
    simp only [Option.some.injEq] at hop
    refine ⟨by simpa using h1, by simpa using h2, by simpa using h3, Or.inl ⟨rfl, hop.symm⟩⟩
  | some u' =>
    rw [insertOp] at hop
    split_ifs at hop with h1 h2 h3 h4
    simp only [Option.some.injEq] at hop
    refine ⟨by simpa using h1, by simpa using h2, by simpa using h3,
      Or.inr ⟨u', rfl, by simpa using h4, hop.symm⟩⟩

theorem deleteOp_eq_some {m : LModel} {h : Nat} {m' : LModel}
    (hop : deleteOp m h = some m') :
    liveB m h = true ∧
    m' = { elems := m.elems.filter (fun q => !(q.1 ∈ descSet m h)),
           cache := m.cache.filter (fun q => !(q.2 ∈ descSet m h)) } := by
  rw [deleteOp] at hop
  split_ifs at hop with h1
  simp only [Option.some.injEq] at hop
  exact ⟨by simpa using h1, hop.symm⟩

theorem lookupH_filter_not_descSet (m : LModel) (D : List Nat) (k : Nat) :
    getA (m.elems.filter (fun q => !(q.1 ∈ D))) k =
      if k ∈ D then none else getA m.elems k := by
  have h0 := getA_filter_key (V := LElem) (fun x => !(x ∈ D)) m.elems k
  by_cases hk : k ∈ D
  · rw [if_pos hk]
    simpa [hk] using h0
  · rw [if_neg hk]
    simpa [hk] using h0

theorem insert_wf {m : LModel} {h : Nat} {u : Option String} {p : Nat} {m' : LModel}
    (hop : insertOp m h u p = some m') (hwf : wfL m = true) : wfL m' = true := by
  obtain ⟨hdead, hplive, hph, hrest⟩ := insertOp_eq_some hop
  obtain ⟨hnd1, hnd2, hw3, hw4, hw5⟩ := (wfL_iff m).mp hwf
  have hnone : getA m.elems h = none := by
    rw [liveB, lookupH] at hdead
    cases hg : getA m.elems h with
    | none => rfl
    | some e => rw [hg] at hdead; simp at hdead
  have hlift : ∀ x enew, liveB m x = true →
      liveB { m with elems := m.elems ++ [(h, enew)] } x = true ∧
      lookupH { m with elems := m.elems ++ [(h, enew)] } x = lookupH m x := by
    intro x enew hx
    rw [liveB, lookupH] at hx ⊢
    cases hg : getA m.elems x with
    | none => rw [hg] at hx; simp at hx
    | some e =>
      have hap := getA_append_some hg [(h, enew)]
      simp only [lookupH]
      rw [hap, hg]
      simp
  have hlift2 : ∀ x enew cnew, liveB m x = true →
      lookupH { elems := m.elems ++ [(h, enew)], cache := cnew } x = lookupH m x := by
    intro x enew cnew hx
    rw [liveB, lookupH] at hx
    cases hg : getA m.elems x with
    | none => rw [hg] at hx; simp at hx
    | some e =>
      show getA (m.elems ++ [(h, enew)]) x = getA m.elems x
      rw [getA_append_some hg, hg]
  rcases hrest with ⟨hu, rfl⟩ | ⟨u', hu, hufresh, rfl⟩
  · rw [wfL_iff]
    refine ⟨noDupKeys_append_singleton hnd1 hnone, hnd2, ?_, ?_, ?_⟩
    · intro h2 e2 p2 hmem hp2
      rcases List.mem_append.mp hmem with hold | hnew
      · obtain ⟨hlt, hlv⟩ := hw3 h2 e2 p2 hold hp2
        constructor
        · exact hlt
        · show liveB { m with elems := m.elems ++ [(h, ⟨none, some p⟩)] } p2 = true
          exact (hlift p2 _ hlv).1
      · simp only [List.mem_singleton, Prod.mk.injEq] at hnew
        obtain ⟨heqh, heqe⟩ := hnew
        rw [heqe] at hp2
        simp only [Option.some.injEq] at hp2
        rw [heqh, ← hp2]
        constructor
        · exact hph
        · show liveB { m with elems := m.elems ++ [(h, ⟨none, some p⟩)] } p = true
          exact (hlift p _ hplive).1
    · intro u2 h2 hmem
      obtain ⟨e, hl, huu⟩ := hw4 u2 h2 hmem
      have hx : liveB m h2 = true := by rw [liveB, hl]; simp
      refine ⟨e, ?_, huu⟩
      rw [hlift2 h2 _ _ hx]
      exact hl
    · intro h2 e2 u2 hmem huu
      rcases List.mem_append.mp hmem with hold | hnew
      · exact hw5 h2 e2 u2 hold huu
      · simp only [List.mem_singleton, Prod.mk.injEq] at hnew
        obtain ⟨heqh, heqe⟩ := hnew
        rw [heqe] at huu
        simp at huu
  · rw [wfL_iff]
    refine ⟨noDupKeys_append_singleton hnd1 hnone,
      noDupKeys_append_singleton hnd2 hufresh, ?_, ?_, ?_⟩
    · intro h2 e2 p2 hmem hp2
      rcases List.mem_append.mp hmem with hold | hnew
      · obtain ⟨hlt, hlv⟩ := hw3 h2 e2 p2 hold hp2
        constructor
        · exact hlt
        · show ((getA (m.elems ++ [(h, ⟨some u', some p⟩)]) p2).isSome) = true
          rw [liveB, lookupH] at hlv
          cases hg : getA m.elems p2 with
          | none => rw [hg] at hlv; simp at hlv
          | some e3 => rw [getA_append_some hg]; simp
      · simp only [List.mem_singleton, Prod.mk.injEq] at hnew
        obtain ⟨heqh, heqe⟩ := hnew
        rw [heqe] at hp2
        simp only [Option.some.injEq] at hp2
        rw [heqh, ← hp2]
        constructor
        · exact hph
        · show ((getA (m.elems ++ [(h, ⟨some u', some p⟩)]) p).isSome) = true
          rw [liveB, lookupH] at hplive
          cases hg : getA m.elems p with
          | none => rw [hg] at hplive; simp at hplive
          | some e3 => rw [getA_append_some hg]; simp
    · intro u2 h2 hmem
      rcases List.mem_append.mp hmem with hold | hnew
      · obtain ⟨e, hl, huu⟩ := hw4 u2 h2 hold
        have hx : liveB m h2 = true := by rw [liveB, hl]; simp
        refine ⟨e, ?_, huu⟩
        rw [hlift2 h2 _ _ hx]
        exact hl
      · simp only [List.mem_singleton, Prod.mk.injEq] at hnew
        obtain ⟨hequ, heqh⟩ := hnew
        rw [hequ, heqh]
        refine ⟨⟨some u', some p⟩, ?_, rfl⟩
        show getA (m.elems ++ [(h, ⟨some u', some p⟩)]) h = some ⟨some u', some p⟩
        rw [getA_append_none hnone, getA, if_pos rfl]
    · intro h2 e2 u2 hmem huu
      rcases List.mem_append.mp hmem with hold | hnew
      · have hc := hw5 h2 e2 u2 hold huu
        show getA (m.cache ++ [(u', h)]) u2 = some h2
        exact getA_append_some hc [(u', h)]
      · simp only [List.mem_singleton, Prod.mk.injEq] at hnew
        obtain ⟨heqh, heqe⟩ := hnew
        rw [heqe] at huu
        simp only [Option.some.injEq] at huu
        rw [heqh, ← huu]
        show getA (m.cache ++ [(u', h)]) u' = some h
        rw [getA_append_none hufresh, getA, if_pos rfl]

end Loader

namespace Loader

theorem delete_wf {m : LModel} {h : Nat} {m' : LModel}
    (hop : deleteOp m h = some m') (hwf : wfL m = true) : wfL m' = true := by
  obtain ⟨hlive, rfl⟩ := deleteOp_eq_some hop
  obtain ⟨hnd1, hnd2, hw3, hw4, hw5⟩ := (wfL_iff m).mp hwf
  rw [wfL_iff]
  refine ⟨noDupKeys_filter _ hnd1, noDupKeys_filter _ hnd2, ?_, ?_, ?_⟩
  · intro h2 e2 p2 hmem hp2
    obtain ⟨hold, hpred⟩ := List.mem_filter.mp hmem
    have hnotin : h2 ∉ descSet m h := by simpa using hpred
    obtain ⟨hlt, hlv⟩ := hw3 h2 e2 p2 hold hp2
    have hpnot : p2 ∉ descSet m h := descSet_closed m hwf hold hp2 hnotin
    constructor
    · exact hlt
    · show (getA (m.elems.filter fun q => !(q.1 ∈ descSet m h)) p2).isSome = true
      rw [lookupH_filter_not_descSet m (descSet m h) p2, if_neg hpnot]
      rw [liveB, lookupH] at hlv
      exact hlv
  · intro u2 h2 hmem
    obtain ⟨hold, hpred⟩ := List.mem_filter.mp hmem
    have hnotin : h2 ∉ descSet m h := by simpa using hpred
    obtain ⟨e, hl, huu⟩ := hw4 u2 h2 hold
    refine ⟨e, ?_, huu⟩
    show getA (m.elems.filter fun q => !(q.1 ∈ descSet m h)) h2 = some e
    rw [lookupH_filter_not_descSet m (descSet m h) h2, if_neg hnotin]
    exact hl
  · intro h2 e2 u2 hmem huu
    obtain ⟨hold, hpred⟩ := List.mem_filter.mp hmem
    have hnotin : h2 ∉ descSet m h := by simpa using hpred
    have hc := hw5 h2 e2 u2 hold huu
    show getA (m.cache.filter fun q => !(q.2 ∈ descSet m h)) u2 = some h2
    rw [getA_filter_of_nodup (fun q => !(q.2 ∈ descSet m h)) hnd2 hc]
    simp [hnotin]

theorem applyL_wf (ops : List LOp) :
    ∀ (m : LModel), wfL m = true → wfL (applyL m ops) = true := by
  induction ops with
  | nil => intro m hwf; exact hwf
  | cons op r ih =>
    intro m hwf
    cases op with
    | insert h u p =>
      rw [applyL]
      cases hop : insertOp m h u p with
      | none => rw [Option.getD_none]; exact ih m hwf
      | some m2 => rw [Option.getD_some]; exact ih m2 (insert_wf hop hwf)
    | delete h =>
      rw [applyL]
      cases hop : deleteOp m h with
      | none => rw [Option.getD_none]; exact ih m hwf
      | some m2 => rw [Option.getD_some]; exact ih m2 (delete_wf hop hwf)

theorem cache_iff (m : LModel) (hwf : wfL m = true) (u : String) (h : Nat) :
    cacheLookup m u = some h ↔
      ∃ e, lookupH m h = some e ∧ e.uuid = some u ∧ reachable m h := by
  obtain ⟨hnd1, hnd2, hw3, hw4, hw5⟩ := (wfL_iff m).mp hwf
  constructor
  · intro hc
    rw [cacheLookup] at hc
    obtain ⟨e, hl, huu⟩ := hw4 u h (getA_mem hc)
    refine ⟨e, hl, huu, ?_⟩
    exact (reachable_iff_live m hwf h).mpr (by rw [liveB, hl]; simp)
  · rintro ⟨e, hl, huu, _⟩
    rw [cacheLookup]
    exact hw5 h e u (getA_mem hl) huu

theorem uuid_inj (m : LModel) (hwf : wfL m = true) :
    ∀ (h1 h2 : Nat) (e1 e2 : LElem) (u : String),
      lookupH m h1 = some e1 → lookupH m h2 = some e2 →
      e1.uuid = some u → e2.uuid = some u → h1 = h2 := by
  intro h1 h2 e1 e2 u hl1 hl2 hu1 hu2
  have hc1 := ((wfL_iff m).mp hwf).2.2.2.2 h1 e1 u (getA_mem hl1) hu1
  have hc2 := ((wfL_iff m).mp hwf).2.2.2.2 h2 e2 u (getA_mem hl2) hu2
  rw [hc1] at hc2
  simpa using hc2

end Loader

/-- C2: on a well-formed loaded model, after any sequence of insert and
delete operations (each the documented composite of the tree edit together
with its identity-cache bookkeeping), the identity cache is consistent:
`lookup(id)` returns exactly the live element carrying that identifier, and
it does so precisely when that element is reachable from a fragment root —
so a removed element is never returned — and no two live elements share an
identifier. -/
theorem c2_idcache_consistency (m0 : Loader.LModel) (ops : List Loader.LOp)
    (hwf : Loader.wfL m0 = true) :
    Loader.wfL (Loader.applyL m0 ops) = true ∧
    (∀ u h, Loader.cacheLookup (Loader.applyL m0 ops) u = some h ↔
      ∃ e, Loader.lookupH (Loader.applyL m0 ops) h = some e ∧ e.uuid = some u ∧
        Loader.reachable (Loader.applyL m0 ops) h) ∧
    (∀ (h1 h2 : Nat) (e1 e2 : Loader.LElem) (u : String),
      Loader.lookupH (Loader.applyL m0 ops) h1 = some e1 →
      Loader.lookupH (Loader.applyL m0 ops) h2 = some e2 →
      e1.uuid = some u → e2.uuid = some u → h1 = h2) := by
  have hwf' := Loader.applyL_wf ops m0 hwf
  exact ⟨hwf', fun u h => Loader.cache_iff _ hwf' u h, Loader.uuid_inj _ hwf'⟩

/-- C2 witness: the consistency theorem applied to a concrete model and a
concrete insert/insert/delete sequence. -/
theorem c2_witness :
    Loader.wfL Loader.m0c = true ∧
    (Loader.wfL (Loader.applyL Loader.m0c Loader.opsC) = true ∧
    (∀ u h, Loader.cacheLookup (Loader.applyL Loader.m0c Loader.opsC) u = some h ↔
      ∃ e, Loader.lookupH (Loader.applyL Loader.m0c Loader.opsC) h = some e ∧
        e.uuid = some u ∧
        Loader.reachable (Loader.applyL Loader.m0c Loader.opsC) h) ∧
    (∀ (h1 h2 : Nat) (e1 e2 : Loader.LElem) (u : String),
      Loader.lookupH (Loader.applyL Loader.m0c Loader.opsC) h1 = some e1 →
      Loader.lookupH (Loader.applyL Loader.m0c Loader.opsC) h2 = some e2 →
      e1.uuid = some u → e2.uuid = some u → h1 = h2)) ∧
    Loader.cacheLookup (Loader.applyL Loader.m0c Loader.opsC) "a" = none ∧
    Loader.cacheLookup (Loader.applyL Loader.m0c Loader.opsC) "b" = none ∧
    Loader.cacheLookup (Loader.applyL Loader.m0c Loader.opsC) "root" = some 0 :=
  ⟨by decide, c2_idcache_consistency Loader.m0c Loader.opsC (by decide),
   by decide, by decide, by decide⟩

namespace Loader

theorem idcache_index_elems (m : LModel) (h : Nat) :
    (idcache_index m h).elems = m.elems := by
  rw [idcache_index]
  cases hl : lookupH m h with
  | none => rfl
  | some e =>
    dsimp only
    cases hu : e.uuid with
    | none => rfl
    | some u =>
      dsimp only
      by_cases hs : (getA m.cache u).isSome = true
      · rw [if_pos hs]
      · rw [if_neg hs]

end Loader

/-- C9: the low-level primitives keep tree and cache independent: a plain
tree insertion or removal never touches the identity cache, and the explicit
`idcache_index` / `idcache_remove` calls never touch the tree; consequently,
between the tree mutation and the explicit cache call the two can disagree —
concretely, a freshly inserted element is reachable while its UUID lookup
still fails, and after a tree removal without `idcache_remove` the UUID
lookup still answers although the element is no longer live. -/
theorem c9_manual_idcache :
    (∀ (m : Loader.LModel) (h : Nat) (u : Option String) (p : Nat),
      (Loader.treeInsert m h u p).cache = m.cache) ∧
    (∀ (m : Loader.LModel) (h : Nat), (Loader.treeRemove m h).cache = m.cache) ∧
    (∀ (m : Loader.LModel) (h : Nat), (Loader.idcache_index m h).elems = m.elems) ∧
    (∀ (m : Loader.LModel) (h : Nat), (Loader.idcache_remove m h).elems = m.elems) ∧
    (Loader.liveB Loader.mW1 1 = true ∧ Loader.reachable Loader.mW1 1 ∧
      Loader.cacheLookup Loader.mW1 "u1" = none) ∧
    (Loader.liveB Loader.mW3 1 = false ∧
      Loader.cacheLookup Loader.mW3 "u1" = some 1) :=
  ⟨fun _ _ _ _ => rfl,
   fun _ _ => rfl,
   fun m h => Loader.idcache_index_elems m h,
   fun _ _ => rfl,
   ⟨by decide, show Loader.reachF Loader.mW1 (1 + 1) 1 = true by decide, by decide⟩,
   ⟨by decide, by decide⟩⟩

namespace Decl

theorem foldE_error {α : Type} {f : PState → α → Except DErr PState} {x : α}
    (hx : ∀ st, ∃ e, f st x = .error e) :
    ∀ (pre : List α) (st : PState) (post : List α),
      ∃ e, foldE f st (pre ++ x :: post) = .error e := by
  intro pre
  induction pre with
  | nil =>
    intro st post
    obtain ⟨e, he⟩ := hx st
    refine ⟨e, ?_⟩
    rw [List.nil_append, foldE, he]
  | cons y pre' ih =>
    intro st post
    rw [List.cons_append, foldE]
    cases hy : f st y with
    | error e => exact ⟨e, rfl⟩
    | ok st' => exact ih st' post

theorem foldInstrs_append (mm : MM) (b1 b2 : List Instr) :
    ∀ st, foldInstrs mm st (b1 ++ b2) =
      match foldInstrs mm st b1 with
      | .error e => .error e
      | .ok st' => foldInstrs mm st' b2 := by
  induction b1 with
  | nil =>
    intro st
    rw [List.nil_append]
    rfl
  | cons i b1' ih =>
    intro st
    rw [List.cons_append, foldInstrs, foldInstrs]
    cases hs : stepInstr mm st i with
    | error e => rfl
    | ok st' => exact ih st'

end Decl

/-- C10: in declarative delete operations the objects to delete can only be
selected by an explicit identifier: any delete instruction containing a
predicate (`!find`-style) target makes the whole batch fail, whatever the
graph, the meta-model classification, the parent selector and the
surrounding operations; on the concrete graph the reported error is
`unsupportedDeleteTarget`. -/
theorem c10_delete_requires_uuid :
    (∀ (mm : Decl.MM) (g : Decl.Graph) (psel : Decl.Selector) (coll : String)
      (pre post : List Decl.DelTarget) (fs : List (String × String))
      (preOps postOps : List Decl.Op),
      ∃ e, Decl.applyBatch mm g
        [⟨psel, preOps ++ .delete coll (pre ++ .byFind fs :: post) :: postOps⟩] =
          .error e) ∧
    Decl.applyBatch Decl.mm0 Decl.g0 [Decl.findDelInstr] =
      .error .unsupportedDeleteTarget := by
  constructor
  · intro mm g psel coll pre post fs preOps postOps
    have hdel : ∀ (pid : Nat) (st : Decl.PState),
        ∃ e, Decl.applyOp mm pid st
          (.delete coll (pre ++ .byFind fs :: post)) = .error e := by
      intro pid st
      have hx : ∀ st', ∃ e,
          Decl.applyDel mm pid coll st' (.byFind fs) = .error e :=
        fun st' => ⟨.unsupportedDeleteTarget, rfl⟩
      obtain ⟨e, he⟩ := Decl.foldE_error hx pre st post
      exact ⟨e, he⟩
    have hstep : ∃ e, Decl.stepInstr mm ⟨g, []⟩
        ⟨psel, preOps ++ .delete coll (pre ++ .byFind fs :: post) :: postOps⟩ =
          .error e := by
      rw [Decl.stepInstr]
      cases hres : Decl.resolveSelector g psel with
      | error e => exact ⟨e, rfl⟩
      | ok pid =>
        obtain ⟨e, he⟩ := Decl.foldE_error (hdel pid) preOps ⟨g, []⟩ postOps
        exact ⟨e, he⟩
    obtain ⟨e, he⟩ := hstep
    refine ⟨e, ?_⟩
    rw [Decl.applyBatch, Decl.foldInstrs, he]
  · rfl

/-- C3: the reconciliation engine commits a batch atomically: whenever any
instruction of the batch fails — here, the batch decomposes as a succeeding
prefix, a failing instruction and an arbitrary rest — the reported result is
the original graph with the batch not marked applied, even though the prefix
had already produced a mutated working state; and a batch is marked applied
exactly when every instruction succeeds and the end-of-pass promise
resolution succeeds. -/
theorem c3_atomic_batch (mm : Decl.MM) (g : Decl.Graph)
    (pre : List Decl.Instr) (bad : Decl.Instr) (post : List Decl.Instr)
    (stMid : Decl.PState) (err : Decl.DErr)
    (hpre : Decl.foldInstrs mm ⟨g, []⟩ pre = .ok stMid)
    (hbad : Decl.stepInstr mm stMid bad = .error err) :
    Decl.applyReport mm g (pre ++ bad :: post) = (g, false) ∧
    (∀ b : List Decl.Instr, (Decl.applyReport mm g b).2 = true ↔
      ∃ st g', Decl.foldInstrs mm ⟨g, []⟩ b = .ok st ∧
        Decl.resolvePromises st.promises st.g = .ok g' ∧
        Decl.applyReport mm g b = (g', true)) := by
  constructor
  · have hfold : Decl.foldInstrs mm ⟨g, []⟩ (pre ++ bad :: post) = .error err := by
      rw [Decl.foldInstrs_append mm pre (bad :: post) ⟨g, []⟩, hpre]
      show Decl.foldInstrs mm stMid (bad :: post) = .error err
      rw [Decl.foldInstrs, hbad]
    rw [Decl.applyReport, Decl.applyBatch, hfold]
  · intro b
    rw [Decl.applyReport, Decl.applyBatch]
    cases hf : Decl.foldInstrs mm ⟨g, []⟩ b with
    | error e =>
      dsimp only
      constructor
      · intro hcontra; simp at hcontra
      · rintro ⟨st, g', hst, _, _⟩; simp at hst
    | ok st =>
      dsimp only
      cases hr : Decl.resolvePromises st.promises st.g with
      | error e =>
        dsimp only
        constructor
        · intro hcontra; simp at hcontra
        · rintro ⟨st', g', hst, hres, _⟩
          simp only [Except.ok.injEq] at hst
          rw [← hst] at hres
          rw [hr] at hres
          simp at hres
      | ok g' =>
        dsimp only
        constructor
        · intro _
          refine ⟨st, g', rfl, hr, ?_⟩
          simp [hr]
        · intro _; rfl

/-- C3 witness: the atomicity theorem applied to a concrete batch: a valid
rename instruction followed by an instruction whose parent does not exist;
the reported graph is the untouched `g0` although the prefix had already
renamed the root in the working state. -/
theorem c3_witness :
    Decl.foldInstrs Decl.mm0 ⟨Decl.g0, []⟩ [Decl.preInstr] = .ok Decl.stMidC ∧
    Decl.stepInstr Decl.mm0 Decl.stMidC Decl.badInstr = .error .parentNotFound ∧
    Decl.applyReport Decl.mm0 Decl.g0 ([Decl.preInstr] ++ Decl.badInstr :: []) =
      (Decl.g0, false) :=
  ⟨rfl, rfl,
   (c3_atomic_batch Decl.mm0 Decl.g0 [Decl.preInstr] Decl.badInstr []
     Decl.stMidC .parentNotFound rfl rfl).1⟩

theorem getA_setA_same [DecidableEq K] :
    ∀ (l : List (K × V)) (k : K) (v : V), getA (setA l k v) k = some v := by
  intro l
  induction l with
  | nil => intro k v; rw [setA, getA, if_pos rfl]
  | cons q r ih =>
    intro k v
    rw [setA]
    by_cases hk : q.1 = k
    · rw [if_pos hk, getA, if_pos hk]
    · rw [if_neg hk, getA, if_neg hk]
      exact ih k v

theorem getA_setA_other [DecidableEq K] :
    ∀ (l : List (K × V)) (k k' : K) (v : V), k ≠ k' →
      getA (setA l k v) k' = getA l k' := by
  intro l
  induction l with
  | nil =>
    intro k k' v hne
    simp [setA, getA, hne]
  | cons q r ih =>
    intro k k' v hne
    rw [setA]
    by_cases hk : q.1 = k
    · rw [if_pos hk, getA, getA, if_neg (by rw [hk]; exact hne), if_neg (by rw [hk]; exact hne)]
    · rw [if_neg hk, getA, getA]
      by_cases hk' : q.1 = k'
      · rw [if_pos hk', if_pos hk']
      · rw [if_neg hk', if_neg hk']
        exact ih k k' v hne

theorem all_setA [DecidableEq K] (P : K × V → Bool) :
    ∀ (l : List (K × V)) (k : K) (v : V),
      l.all P = true → P (k, v) = true → (setA l k v).all P = true := by
  intro l
  induction l with
  | nil => intro k v _ hp; simp [setA, hp]
  | cons q r ih =>
    intro k v hall hp
    rw [List.all_cons, Bool.and_eq_true] at hall
    rw [setA]
    by_cases hk : q.1 = k
    · rw [if_pos hk, List.all_cons, Bool.and_eq_true]
      refine ⟨?_, hall.2⟩
      have hq : (q.1, v) = (k, v) := by rw [hk]
      rw [hq]
      exact hp
    · rw [if_neg hk, List.all_cons, Bool.and_eq_true]
      exact ⟨hall.1, ih k v hall.2 hp⟩

theorem getA_map_upd [DecidableEq K] (i : K) (f : V → V) :
    ∀ (l : List (K × V)) (j : K),
      getA (l.map (fun q => if q.1 = i then (q.1, f q.2) else q)) j =
        if j = i then (getA l j).map f else getA l j := by
  intro l
  induction l with
  | nil => intro j; by_cases hj : j = i <;> simp [getA, hj]
  | cons q r ih =>
    intro j
    rw [List.map_cons]
    by_cases hq : q.1 = i
    · rw [if_pos hq]
      by_cases hj : j = i
      · rw [if_pos hj, getA, getA]
        have hqj : q.1 = j := by rw [hq, hj]
        rw [if_pos hqj, if_pos hqj]
        simp
      · rw [if_neg hj, getA, getA]
        have hqj : ¬q.1 = j := by rw [hq]; exact fun hh => hj hh.symm
        rw [if_neg hqj, if_neg hqj, ih j, if_neg hj]
    · rw [if_neg hq, getA, getA]
      by_cases hqj : q.1 = j
      · rw [if_pos hqj, if_pos hqj]
        have hj : ¬j = i := by rw [← hqj]; exact hq
        rw [if_neg hj]
      · rw [if_neg hqj, if_neg hqj, ih j]

namespace Decl

theorem lookupE_updE (g : Graph) (i : Nat) (f : DElem → DElem) (j : Nat) :
    lookupE (updE g i f) j =
      if j = i then (lookupE g j).map f else lookupE g j := by
  rw [lookupE, updE, lookupE]
  exact getA_map_upd i f g.elems j

theorem getA_filter_notin (l : List (Nat × DElem)) (D : List Nat) (k : Nat) :
    getA (l.filter (fun q => !(q.1 ∈ D))) k = if k ∈ D then none else getA l k := by
  have h0 := getA_filter_key (V := DElem) (fun x => !(x ∈ D)) l k
  by_cases hk : k ∈ D
  · rw [if_pos hk]
    simpa [hk] using h0
  · rw [if_neg hk]
    simpa [hk] using h0

theorem wfG_iff (g : Graph) : wfG g = true ↔
    noDupKeys g.elems = true ∧
    (∀ i e, (i, e) ∈ g.elems →
      i < g.nextId ∧
      (∀ coll kids, (coll, kids) ∈ e.owned →
        ∀ c ∈ kids, i < c ∧ (lookupE g c).isSome = true) ∧
      (∀ coll rs, (coll, rs) ∈ e.refs → noProm rs = true)) := by
  rw [wfG]
  simp only [Bool.and_eq_true, List.all_eq_true]
  constructor
  · rintro ⟨h1, h2⟩
    refine ⟨h1, ?_⟩
    intro i e hmem
    obtain ⟨⟨hlt, hown⟩, href⟩ := h2 (i, e) hmem
    refine ⟨by simpa using hlt, ?_, ?_⟩
    · intro coll kids hck c hc
      have h3 := hown (coll, kids) hck c hc
      exact ⟨by simpa using h3.1, h3.2⟩
    · intro coll rs hcr
      exact href (coll, rs) hcr
  · rintro ⟨h1, h2⟩
    refine ⟨h1, ?_⟩
    intro q hmem
    obtain ⟨hlt, hown, href⟩ := h2 q.1 q.2 hmem
    refine ⟨⟨by simpa using hlt, ?_⟩, ?_⟩
    · intro cl hcl c hc
      have := hown cl.1 cl.2 hcl c hc
      simp [this.1, this.2]
    · intro cl hcl
      exact href cl.1 cl.2 hcl

theorem foldl_max_init_le :
    ∀ (l : List (Nat × DElem)) (acc : Nat),
      acc ≤ l.foldl (fun a q => max a q.1) acc := by
  intro l
  induction l with
  | nil => intro acc; exact Nat.le_refl acc
  | cons q r ih =>
    intro acc
    rw [List.foldl_cons]
    exact Nat.le_trans (Nat.le_max_left acc q.1) (ih (max acc q.1))

theorem le_maxId_of_mem {g : Graph} {i : Nat} {e : DElem}
    (hmem : (i, e) ∈ g.elems) : i ≤ maxId g := by
  rw [maxId]
  have : ∀ (l : List (Nat × DElem)) (acc : Nat), (i, e) ∈ l →
      i ≤ l.foldl (fun a q => max a q.1) acc := by
    intro l
    induction l with
    | nil => intro acc hm; simp at hm
    | cons q r ih =>
      intro acc hm
      rw [List.foldl_cons]
      rcases List.mem_cons.mp hm with heq | hm'
      · have : i = q.1 := by rw [← heq]
        rw [this]
        exact Nat.le_trans (Nat.le_max_right acc q.1) (foldl_max_init_le r (max acc q.1))
      · exact ih (max acc q.1) hm'
  exact this g.elems 0 hmem

theorem wfG_child {g : Graph} (hwf : wfG g = true) {a b : Nat}
    (hb : b ∈ childIds g a) : a < b ∧ (lookupE g b).isSome = true := by
  rw [childIds] at hb
  cases hla : lookupE g a with
  | none => rw [hla] at hb; simp at hb
  | some ea =>
    rw [hla] at hb
    obtain ⟨kids, hkids, hbk⟩ := List.mem_flatten.mp hb
    obtain ⟨cl, hcl, rfl⟩ := List.mem_map.mp hkids
    have hmem : (a, ea) ∈ g.elems := getA_mem hla
    obtain ⟨_, hown, _⟩ := ((wfG_iff g).mp hwf).2 a ea hmem
    exact hown cl.1 cl.2 (by simpa using hcl) b hbk

theorem mem_collectDesc_self (g : Graph) :
    ∀ (fuel c : Nat), c ∈ collectDesc g fuel c := by
  intro fuel c
  cases fuel with
  | zero => simp [collectDesc]
  | succ f => simp [collectDesc]

theorem collectDesc_lb (g : Graph) (hwf : wfG g = true) :
    ∀ (fuel c x : Nat), x ∈ collectDesc g fuel c → c ≤ x := by
  intro fuel
  induction fuel with
  | zero =>
    intro c x hx
    rw [collectDesc] at hx
    simp at hx
    omega
  | succ f ihf =>
    intro c x hx
    rw [collectDesc] at hx
    rcases List.mem_cons.mp hx with rfl | hx'
    · exact Nat.le_refl x
    · obtain ⟨l, hl, hxl⟩ := List.mem_flatten.mp hx'
      obtain ⟨b, hb, rfl⟩ := List.mem_map.mp hl
      have hcb := (wfG_child hwf hb).1
      have hbx := ihf b x hxl
      omega

theorem collectDesc_complete (g : Graph) (hwf : wfG g = true) :
    ∀ {c d : Nat}, OwnsPath g c d →
      ∀ fuel, maxId g + 1 - c ≤ fuel → d ∈ collectDesc g fuel c := by
  intro c d hpath
  induction hpath with
  | refl i => intro fuel _; exact mem_collectDesc_self g fuel i
  | step hb hpath' ih =>
    rename_i a b d'
    intro fuel hfuel
    obtain ⟨hab, hblive⟩ := wfG_child hwf hb
    obtain ⟨eb, heb⟩ : ∃ eb, lookupE g b = some eb := by
      cases hx : lookupE g b with
      | none => rw [hx] at hblive; simp at hblive
      | some eb => exact ⟨eb, rfl⟩
    have hbmax : b ≤ maxId g := le_maxId_of_mem (getA_mem heb)
    have hfuel1 : 1 ≤ fuel := by omega
    match fuel, hfuel1 with
    | f + 1, _ =>
      rw [collectDesc]
      have hih : d' ∈ collectDesc g f b := ih f (by omega)
      refine List.mem_cons_of_mem a (List.mem_flatten.mpr ?_)
      exact ⟨collectDesc g f b, List.mem_map.mpr ⟨b, hb, rfl⟩, hih⟩

theorem noProm_erase {rs : List PRef} {x : PRef} (h : noProm rs = true) :
    noProm (rs.erase x) = true := by
  rw [noProm, List.all_eq_true] at h ⊢
  intro r hr
  exact h r (List.mem_of_mem_erase hr)

theorem resolveRefList_id (binds : List (String × Nat)) :
    ∀ rs, noProm rs = true → resolveRefList binds rs = .ok rs := by
  intro rs
  induction rs with
  | nil => intro _; rfl
  | cons r rs' ih =>
    intro h
    rw [noProm, List.all_cons, Bool.and_eq_true] at h
    cases r with
    | prom tk => simp at h
    | res i =>
      rw [resolveRefList, resolveRef]
      rw [ih (by rw [noProm]; exact h.2)]

theorem resolveColls_id (binds : List (String × Nat)) :
    ∀ colls, colls.all (fun cl => noProm cl.2) = true →
      resolveColls binds colls = .ok colls := by
  intro colls
  induction colls with
  | nil => intro _; rfl
  | cons cl rest ih =>
    intro h
    rw [List.all_cons, Bool.and_eq_true] at h
    obtain ⟨c, rs⟩ := cl
    rw [resolveColls, resolveRefList_id binds rs h.1, ih h.2]

theorem resolveElems_id (binds : List (String × Nat)) :
    ∀ es, es.all (fun q => q.2.refs.all (fun cl => noProm cl.2)) = true →
      resolveElems binds es = .ok es := by
  intro es
  induction es with
  | nil => intro _; rfl
  | cons q rest ih =>
    intro h
    rw [List.all_cons, Bool.and_eq_true] at h
    obtain ⟨i, e⟩ := q
    rw [resolveElems, resolveColls_id binds e.refs h.1, ih h.2]

theorem resolvePromises_id (binds : List (String × Nat)) (g : Graph)
    (h : noPromG g = true) : resolvePromises binds g = .ok g := by
  rw [resolvePromises, resolveElems_id binds g.elems h]

end Decl

namespace Decl

theorem applyDel_nonowning (mm : MM) (g : Graph) (p c : Nat) (coll : String)
    (pe : DElem) (hpe : lookupE g p = some pe) (hmm : mm coll = false)
    (href : PRef.res c ∈ (getA pe.refs coll).getD []) :
    applyDel mm p coll ⟨g, []⟩ (.byId c) = .ok ⟨delRefResult g p coll c pe, []⟩ := by
  simp only [applyDel, hpe, hmm]
  rw [if_pos href]
  rfl

theorem applyDel_owning (mm : MM) (g : Graph) (p c : Nat) (coll : String)
    (pe : DElem) (hpe : lookupE g p = some pe) (hmm : mm coll = true)
    (hco : c ∈ (getA pe.owned coll).getD []) :
    applyDel mm p coll ⟨g, []⟩ (.byId c) = .ok ⟨delOwnResult g p coll c pe, []⟩ := by
  simp only [applyDel, hpe, hmm]
  rw [if_pos hco]
  rfl

theorem resolveSelector_byId (g : Graph) (p : Nat) (pe : DElem)
    (hpe : lookupE g p = some pe) : resolveSelector g (.byId p) = .ok p := by
  rw [resolveSelector]
  simp only [hpe]

theorem stepInstr_delete (mm : MM) (g : Graph) (p c : Nat) (coll : String)
    (gr : Graph) (pe : DElem) (hpe : lookupE g p = some pe)
    (hdel : applyDel mm p coll ⟨g, []⟩ (.byId c) = .ok ⟨gr, []⟩) :
    stepInstr mm ⟨g, []⟩ ⟨.byId p, [.delete coll [.byId c]]⟩ = .ok ⟨gr, []⟩ := by
  simp only [stepInstr, resolveSelector_byId g p pe hpe, foldE, applyOp, hdel]

theorem applyBatch_single_delete (mm : MM) (g : Graph) (p c : Nat) (coll : String)
    (gr : Graph) (pe : DElem) (hpe : lookupE g p = some pe)
    (hdel : applyDel mm p coll ⟨g, []⟩ (.byId c) = .ok ⟨gr, []⟩)
    (hnp : noPromG gr = true) :
    applyBatch mm g [⟨.byId p, [.delete coll [.byId c]]⟩] = .ok gr := by
  rw [applyBatch]
  have hfold : foldInstrs mm ⟨g, []⟩ [⟨.byId p, [.delete coll [.byId c]]⟩] =
      .ok ⟨gr, []⟩ := by
    rw [foldInstrs, stepInstr_delete mm g p c coll gr pe hpe hdel]
    rfl
  rw [hfold]
  exact resolvePromises_id [] gr hnp

/-- All reference lists of a well-formed graph are promise-free, for each
element. -/
theorem wfG_elem_noProm (g : Graph) (hwf : wfG g = true) {q : Nat × DElem}
    (hq : q ∈ g.elems) : q.2.refs.all (fun cl => noProm cl.2) = true := by
  obtain ⟨_, _, hrefs⟩ := ((wfG_iff g).mp hwf).2 q.1 q.2 hq
  exact List.all_eq_true.mpr (fun cl hcl => hrefs cl.1 cl.2 (by simpa using hcl))

theorem noPromG_delRefResult (g : Graph) (hwf : wfG g = true) (p c : Nat)
    (coll : String) (pe : DElem) (hpe : lookupE g p = some pe) :
    noPromG (delRefResult g p coll c pe) = true := by
  rw [noPromG, List.all_eq_true]
  intro q' hq'
  simp only [delRefResult, updE] at hq'
  obtain ⟨q, hq, rfl⟩ := List.mem_map.mp hq'
  have hqall := wfG_elem_noProm g hwf hq
  by_cases hqp : q.1 = p
  · rw [if_pos hqp]
    dsimp only
    apply all_setA
    · exact hqall
    · apply noProm_erase
      cases hgr : getA pe.refs coll with
      | none => rfl
      | some rs0 =>
        exact wfG_elem_noProm g hwf (getA_mem hpe) |>
          (fun hall => by
            rw [List.all_eq_true] at hall
            exact hall (coll, rs0) (getA_mem hgr))
  · rw [if_neg hqp]
    exact hqall

theorem noPromG_delOwnResult (g : Graph) (hwf : wfG g = true) (p c : Nat)
    (coll : String) (pe : DElem) :
    noPromG (delOwnResult g p coll c pe) = true := by
  rw [noPromG, List.all_eq_true]
  intro q' hq'
  simp only [delOwnResult] at hq'
  have hq'' := List.mem_of_mem_filter hq'
  simp only [updE] at hq''
  obtain ⟨q, hq, rfl⟩ := List.mem_map.mp hq''
  have hqall := wfG_elem_noProm g hwf hq
  by_cases hqp : q.1 = p
  · rw [if_pos hqp]
    exact hqall
  · rw [if_neg hqp]
    exact hqall

end Decl

/-- C6: delete-from-collection semantics: under a non-owning reference
collection only the link record is removed — the element's entry (and hence
an identity-cache lookup by its identifier) survives, and no other element
changes; under an owning (strict containment) collection, the element is
removed from the collection and fully destroyed together with everything it
(transitively) exclusively owns, so subsequent lookups by any of those
identifiers fail. -/
theorem c6_delete_semantics (mm : Decl.MM) (g : Decl.Graph) (p c : Nat) (coll : String)
    (hwf : Decl.wfG g = true) :
    (mm coll = false → Decl.PRef.res c ∈ Decl.refsOf g p coll →
      ∃ g', Decl.applyBatch mm g [⟨.byId p, [.delete coll [.byId c]]⟩] = .ok g' ∧
        Decl.refsOf g' p coll = (Decl.refsOf g p coll).erase (.res c) ∧
        ((Decl.lookupE g c).isSome = true → (Decl.lookupE g' c).isSome = true) ∧
        (∀ i, i ≠ p → Decl.lookupE g' i = Decl.lookupE g i)) ∧
    (mm coll = true → c ∈ Decl.ownedOf g p coll →
      ∃ g', Decl.applyBatch mm g [⟨.byId p, [.delete coll [.byId c]]⟩] = .ok g' ∧
        Decl.ownedOf g' p coll = (Decl.ownedOf g p coll).erase c ∧
        Decl.lookupE g' c = none ∧
        (∀ d, Decl.OwnsPath g c d → Decl.lookupE g' d = none)) := by
  constructor
  · intro hmm href
    rw [Decl.refsOf] at href
    cases hpe : Decl.lookupE g p with
    | none => rw [hpe] at href; simp at href
    | some pe =>
      simp only [hpe] at href
      refine ⟨Decl.delRefResult g p coll c pe, ?_, ?_, ?_, ?_⟩
      · exact Decl.applyBatch_single_delete mm g p c coll _ pe hpe
          (Decl.applyDel_nonowning mm g p c coll pe hpe hmm href)
          (Decl.noPromG_delRefResult g hwf p c coll pe hpe)
      · have h1 : Decl.lookupE (Decl.delRefResult g p coll c pe) p = some { pe with refs := setA pe.refs coll (((getA pe.refs coll).getD []).erase (.res c)) } := by
          rw [Decl.delRefResult, Decl.lookupE_updE, if_pos rfl, hpe]
          rfl
        rw [Decl.refsOf, h1, Decl.refsOf, hpe]
        dsimp only
        rw [getA_setA_same]
        rfl
      · intro hcs
        rw [Decl.delRefResult, Decl.lookupE_updE]
        by_cases hcp : c = p
        · rw [if_pos hcp, hcp] at *
          rw [hpe]
          simp
        · rw [if_neg hcp]
          exact hcs
      · intro i hip
        rw [Decl.delRefResult, Decl.lookupE_updE, if_neg hip]
  · intro hmm hco
    rw [Decl.ownedOf] at hco
    cases hpe : Decl.lookupE g p with
    | none => rw [hpe] at hco; simp at hco
    | some pe =>
      simp only [hpe] at hco
      refine ⟨Decl.delOwnResult g p coll c pe, ?_, ?_, ?_, ?_⟩
      · exact Decl.applyBatch_single_delete mm g p c coll _ pe hpe
          (Decl.applyDel_owning mm g p c coll pe hpe hmm hco)
          (Decl.noPromG_delOwnResult g hwf p c coll pe)
      · obtain ⟨kids0, hgk⟩ : ∃ kids0, getA pe.owned coll = some kids0 := by
          cases hgk : getA pe.owned coll with
          | none => rw [hgk] at hco; simp at hco
          | some kids0 => exact ⟨kids0, rfl⟩
        have hck : c ∈ kids0 := by rw [hgk] at hco; simpa using hco
        have hplt : p < c := by
          obtain ⟨_, hown, _⟩ := ((Decl.wfG_iff g).mp hwf).2 p pe (getA_mem hpe)
          exact (hown coll kids0 (getA_mem hgk) c hck).1
        have hpnot : p ∉ Decl.collectDesc g (Decl.maxId g + 1) c := by
          intro hmem
          have := Decl.collectDesc_lb g hwf (Decl.maxId g + 1) c p hmem
          omega
        have h1 : Decl.lookupE (Decl.delOwnResult g p coll c pe) p = some { pe with owned := setA pe.owned coll (((getA pe.owned coll).getD []).erase c) } := by
          rw [Decl.delOwnResult]
          show getA _ p = _
          rw [Decl.getA_filter_notin _ _ p, if_neg hpnot]
          have h2 := Decl.lookupE_updE g p (fun pe2 => { pe2 with owned := setA pe2.owned coll (((getA pe.owned coll).getD []).erase c) }) p
          rw [if_pos rfl, hpe] at h2
          exact h2
        rw [Decl.ownedOf, h1, Decl.ownedOf, hpe]
        dsimp only
        rw [getA_setA_same]
        rfl
      · rw [Decl.delOwnResult]
        show getA _ c = none
        rw [Decl.getA_filter_notin _ _ c,
          if_pos (Decl.mem_collectDesc_self g (Decl.maxId g + 1) c)]
      · intro d hpath
        rw [Decl.delOwnResult]
        show getA _ d = none
        have hd : d ∈ Decl.collectDesc g (Decl.maxId g + 1) c :=
          Decl.collectDesc_complete g hwf hpath (Decl.maxId g + 1) (by omega)
        rw [Decl.getA_filter_notin _ _ d, if_pos hd]

/-- C6 witness: the delete-semantics theorem applied to the concrete graph:
deleting function 1 from the root's non-owning `allocated_functions` list
only drops the link, while deleting it from the owning `functions`
collection destroys it together with its nested function 2. -/
theorem c6_witness :
    Decl.wfG Decl.g0 = true ∧
    (∃ g', Decl.applyBatch Decl.mm0 Decl.g0
        [⟨.byId 0, [.delete "allocated_functions" [.byId 1]]⟩] = .ok g' ∧
      Decl.refsOf g' 0 "allocated_functions" =
        (Decl.refsOf Decl.g0 0 "allocated_functions").erase (.res 1) ∧
      ((Decl.lookupE Decl.g0 1).isSome = true →
        (Decl.lookupE g' 1).isSome = true) ∧
      (∀ i, i ≠ 0 → Decl.lookupE g' i = Decl.lookupE Decl.g0 i)) ∧
    (∃ g', Decl.applyBatch Decl.mm0 Decl.g0
        [⟨.byId 0, [.delete "functions" [.byId 1]]⟩] = .ok g' ∧
      Decl.ownedOf g' 0 "functions" = (Decl.ownedOf Decl.g0 0 "functions").erase 1 ∧
      Decl.lookupE g' 1 = none ∧
      (∀ d, Decl.OwnsPath Decl.g0 1 d → Decl.lookupE g' d = none)) :=
  ⟨by decide,
   (c6_delete_semantics Decl.mm0 Decl.g0 0 1 "allocated_functions"
     (by decide)).1 (by decide) (by decide),
   (c6_delete_semantics Decl.mm0 Decl.g0 0 1 "functions"
     (by decide)).2 (by decide) (by decide)⟩

namespace Decl

theorem stepInstr_extend_refPromise (mm : MM) (st : PState) (pj : Nat) (cj tk : String)
    (pej : DElem) (hpj : lookupE st.g pj = some pej) (hmm : mm cj = false) :
    stepInstr mm st ⟨.byId pj, [.extend cj [.refPromise tk]]⟩ =
      .ok ⟨updE st.g pj (fun pe => { pe with refs := updA pe.refs cj [] (fun l => l ++ [.prom tk]) }), st.promises⟩ := by
  simp only [stepInstr, resolveSelector_byId st.g pj pej hpj, foldE, applyOp, applyExt, hmm]
  rfl

theorem stepInstr_extend_newObj (mm : MM) (st : PState) (pk : Nat) (ck : String)
    (ty : String) (as : List (String × String)) (tk : String)
    (pek : DElem) (hpk : lookupE st.g pk = some pek) (hmm : mm ck = true)
    (htk : getA st.promises tk = none) :
    stepInstr mm st ⟨.byId pk, [.extend ck [.newObj ty as (some tk)]]⟩ =
      .ok ⟨updE { elems := st.g.elems ++ [(st.g.nextId, ⟨ty, as, [], []⟩)], nextId := st.g.nextId + 1 } pk (fun pe => { pe with owned := updA pe.owned ck [] (fun l => l ++ [st.g.nextId]) }), st.promises ++ [(tk, st.g.nextId)]⟩ := by
  simp only [stepInstr, resolveSelector_byId st.g pk pek hpk, foldE, applyOp, applyExt, hmm,
    bindPromise, htk, addE]
  rfl

theorem mem_setA [DecidableEq K] :
    ∀ {l : List (K × V)} {k : K} {v : V} {q : K × V},
      q ∈ setA l k v → q ∈ l ∨ q = (k, v) := by
  intro l
  induction l with
  | nil =>
    intro k v q hq
    rw [setA] at hq
    simp at hq
    exact Or.inr hq
  | cons p r ih =>
    intro k v q hq
    rw [setA] at hq
    by_cases hk : p.1 = k
    · rw [if_pos hk] at hq
      rcases List.mem_cons.mp hq with rfl | hq'
      · exact Or.inr (by rw [hk])
      · exact Or.inl (List.mem_cons_of_mem p hq')
    · rw [if_neg hk] at hq
      rcases List.mem_cons.mp hq with heq | hq'
      · rw [heq]
        exact Or.inl (List.mem_cons_self p r)
      · rcases ih hq' with h | h
        · exact Or.inl (List.mem_cons_of_mem p h)
        · exact Or.inr h

/-- All promise tokens appearing in the graph are bound in `binds`. -/
def TokensBound (binds : List (String × Nat)) (g : Graph) : Prop :=
  ∀ q ∈ g.elems, ∀ cl ∈ q.2.refs, ∀ t, PRef.prom t ∈ cl.2 → (getA binds t).isSome = true

theorem resolveRefList_ok (binds : List (String × Nat)) :
    ∀ rs, (∀ t, PRef.prom t ∈ rs → (getA binds t).isSome = true) →
      ∃ rs', resolveRefList binds rs = .ok rs' := by
  intro rs
  induction rs with
  | nil => intro _; exact ⟨[], rfl⟩
  | cons r rs' ih =>
    intro h
    obtain ⟨rest, hrest⟩ := ih (fun t ht => h t (List.mem_cons_of_mem r ht))
    cases r with
    | res i =>
      refine ⟨.res i :: rest, ?_⟩
      rw [resolveRefList, resolveRef, hrest]
    | prom t =>
      have hb := h t (List.mem_cons_self _ rs')
      cases hg : getA binds t with
      | none => rw [hg] at hb; simp at hb
      | some i =>
        refine ⟨.res i :: rest, ?_⟩
        rw [resolveRefList, resolveRef, hg, hrest]

theorem resolveColls_ok (binds : List (String × Nat)) :
    ∀ colls, (∀ cl ∈ colls, ∀ t, PRef.prom t ∈ (cl : String × List PRef).2 →
        (getA binds t).isSome = true) →
      ∃ colls', resolveColls binds colls = .ok colls' := by
  intro colls
  induction colls with
  | nil => intro _; exact ⟨[], rfl⟩
  | cons cl rest ih =>
    intro h
    obtain ⟨rest', hrest⟩ := ih (fun cl' hcl' => h cl' (List.mem_cons_of_mem cl hcl'))
    obtain ⟨rs', hrs⟩ := resolveRefList_ok binds cl.2
      (fun t ht => h cl (List.mem_cons_self cl rest) t ht)
    obtain ⟨c, rs⟩ := cl
    refine ⟨(c, rs') :: rest', ?_⟩
    rw [resolveColls, hrs, hrest]

theorem resolveElems_ok (binds : List (String × Nat)) :
    ∀ es, (∀ q ∈ (es : List (Nat × DElem)), ∀ cl ∈ q.2.refs, ∀ t,
        PRef.prom t ∈ cl.2 → (getA binds t).isSome = true) →
      ∃ es', resolveElems binds es = .ok es' := by
  intro es
  induction es with
  | nil => intro _; exact ⟨[], rfl⟩
  | cons q rest ih =>
    intro h
    obtain ⟨rest', hrest⟩ := ih (fun q' hq' => h q' (List.mem_cons_of_mem q hq'))
    obtain ⟨refs', hrefs⟩ := resolveColls_ok binds q.2.refs
      (fun cl hcl => h q (List.mem_cons_self q rest) cl hcl)
    obtain ⟨i, e⟩ := q
    refine ⟨(i, { e with refs := refs' }) :: rest', ?_⟩
    rw [resolveElems, hrefs, hrest]

theorem resolvePromises_ok (binds : List (String × Nat)) (g : Graph)
    (h : TokensBound binds g) : ∃ g', resolvePromises binds g = .ok g' := by
  obtain ⟨es', hes⟩ := resolveElems_ok binds g.elems h
  exact ⟨{ g with elems := es' }, by rw [resolvePromises, hes]⟩

theorem foldInstrs_two (mm : MM) (st : PState) (i1 i2 : Instr) (st1 st2 : PState)
    (h1 : stepInstr mm st i1 = .ok st1) (h2 : stepInstr mm st1 i2 = .ok st2) :
    foldInstrs mm st [i1, i2] = .ok st2 := by
  rw [foldInstrs, h1]
  show foldInstrs mm st1 [i2] = .ok st2
  rw [foldInstrs, h2]
  rfl

end Decl

namespace Decl

theorem not_prom_mem {rs : List PRef} (h : noProm rs = true) (t : String) :
    PRef.prom t ∉ rs := by
  intro hmem
  rw [noProm, List.all_eq_true] at h
  have := h _ hmem
  simp at this

end Decl

namespace Decl

theorem map_upd_comm (pj pk : Nat) (fJ fK : DElem → DElem)
    (hc : ∀ e, fK (fJ e) = fJ (fK e)) :
    ∀ l : List (Nat × DElem),
      (l.map (fun q => if q.1 = pj then (q.1, fJ q.2) else q)).map
          (fun q => if q.1 = pk then (q.1, fK q.2) else q) =
      (l.map (fun q => if q.1 = pk then (q.1, fK q.2) else q)).map
          (fun q => if q.1 = pj then (q.1, fJ q.2) else q) := by
  intro l
  induction l with
  | nil => rfl
  | cons p r ih =>
    rw [List.map_cons, List.map_cons, List.map_cons, List.map_cons, ih]
    congr 1
    by_cases hj : p.1 = pj
    · by_cases hk : p.1 = pk
      · subst hj
        subst hk
        simp [hc p.2]
      · subst hj
        simp [hk]
    · by_cases hk : p.1 = pk
      · subst hk
        simp [hj]
      · simp [hj, hk]

end Decl

/-- C4: promise order-independence: a batch whose instruction `k` creates an
element declaring promise token `tk` under one parent, and whose instruction
`j` only inserts a `!promise tk` reference into another (non-owning)
collection, produces the same resulting graph whether `j` comes before or
after `k` — the reference is stored symbolically and resolved only at the
end of the pass — and the batch succeeds. -/
theorem c4_promise_order_independence (mm : Decl.MM) (g : Decl.Graph)
    (pj pk : Nat) (cj ck tk ty : String) (as : List (String × String))
    (hwf : Decl.wfG g = true)
    (pej : Decl.DElem) (hpj : Decl.lookupE g pj = some pej)
    (pek : Decl.DElem) (hpk : Decl.lookupE g pk = some pek)
    (hcj : mm cj = false) (hck : mm ck = true) :
    Decl.applyBatch mm g
        [⟨.byId pj, [.extend cj [.refPromise tk]]⟩,
         ⟨.byId pk, [.extend ck [.newObj ty as (some tk)]]⟩] =
      Decl.applyBatch mm g
        [⟨.byId pk, [.extend ck [.newObj ty as (some tk)]]⟩,
         ⟨.byId pj, [.extend cj [.refPromise tk]]⟩] ∧
    Decl.exOk (Decl.applyBatch mm g
        [⟨.byId pj, [.extend cj [.refPromise tk]]⟩,
         ⟨.byId pk, [.extend ck [.newObj ty as (some tk)]]⟩]) = true := by
  have hpjlt : pj < g.nextId := (((Decl.wfG_iff g).mp hwf).2 pj pej (getA_mem hpj)).1
  have hpklt : pk < g.nextId := (((Decl.wfG_iff g).mp hwf).2 pk pek (getA_mem hpk)).1
  have hidj : ¬g.nextId = pj := by omega
  have hidk : ¬g.nextId = pk := by omega
  have hstep1 : Decl.stepInstr mm ⟨g, []⟩ ⟨.byId pj, [.extend cj [.refPromise tk]]⟩ =
      .ok ⟨Decl.updE g pj (fun pe => { pe with refs := updA pe.refs cj [] (fun l => l ++ [.prom tk]) }), []⟩ :=
    Decl.stepInstr_extend_refPromise mm ⟨g, []⟩ pj cj tk pej hpj hcj
  obtain ⟨pek1, hpk1⟩ : ∃ pek1,
      Decl.lookupE (Decl.updE g pj (fun pe => { pe with refs := updA pe.refs cj [] (fun l => l ++ [.prom tk]) })) pk = some pek1 := by
    rw [Decl.lookupE_updE]
    by_cases h : pk = pj
    · rw [if_pos h, hpk]
      exact ⟨_, rfl⟩
    · rw [if_neg h, hpk]
      exact ⟨pek, rfl⟩
  have hstep2 : Decl.stepInstr mm
      ⟨Decl.updE g pj (fun pe => { pe with refs := updA pe.refs cj [] (fun l => l ++ [.prom tk]) }), []⟩
      ⟨.byId pk, [.extend ck [.newObj ty as (some tk)]]⟩ =
      .ok ⟨Decl.updE { elems := (Decl.updE g pj (fun pe => { pe with refs := updA pe.refs cj [] (fun l => l ++ [.prom tk]) })).elems ++ [(g.nextId, ⟨ty, as, [], []⟩)], nextId := g.nextId + 1 } pk (fun pe => { pe with owned := updA pe.owned ck [] (fun l => l ++ [g.nextId]) }), [(tk, g.nextId)]⟩ :=
    Decl.stepInstr_extend_newObj mm
      ⟨Decl.updE g pj (fun pe => { pe with refs := updA pe.refs cj [] (fun l => l ++ [.prom tk]) }), []⟩
      pk ck ty as tk pek1 hpk1 hck rfl
  have hstep1k : Decl.stepInstr mm ⟨g, []⟩ ⟨.byId pk, [.extend ck [.newObj ty as (some tk)]]⟩ =
      .ok ⟨Decl.updE { elems := g.elems ++ [(g.nextId, ⟨ty, as, [], []⟩)], nextId := g.nextId + 1 } pk (fun pe => { pe with owned := updA pe.owned ck [] (fun l => l ++ [g.nextId]) }), [(tk, g.nextId)]⟩ :=
    Decl.stepInstr_extend_newObj mm ⟨g, []⟩ pk ck ty as tk pek hpk hck rfl
  obtain ⟨pej1, hpj1⟩ : ∃ pej1,
      Decl.lookupE (Decl.updE { elems := g.elems ++ [(g.nextId, ⟨ty, as, [], []⟩)], nextId := g.nextId + 1 } pk (fun pe => { pe with owned := updA pe.owned ck [] (fun l => l ++ [g.nextId]) })) pj = some pej1 := by
    rw [Decl.lookupE_updE]
    have happ : Decl.lookupE { elems := g.elems ++ [(g.nextId, ⟨ty, as, [], []⟩)], nextId := g.nextId + 1 } pj = some pej := by
      show getA (g.elems ++ [(g.nextId, ⟨ty, as, [], []⟩)]) pj = some pej
      exact getA_append_some hpj _
    by_cases h : pj = pk
    · rw [if_pos h, happ]
      exact ⟨_, rfl⟩
    · rw [if_neg h]
      exact ⟨pej, happ⟩
  have hstep2k : Decl.stepInstr mm
      ⟨Decl.updE { elems := g.elems ++ [(g.nextId, ⟨ty, as, [], []⟩)], nextId := g.nextId + 1 } pk (fun pe => { pe with owned := updA pe.owned ck [] (fun l => l ++ [g.nextId]) }), [(tk, g.nextId)]⟩
      ⟨.byId pj, [.extend cj [.refPromise tk]]⟩ =
      .ok ⟨Decl.updE (Decl.updE { elems := g.elems ++ [(g.nextId, ⟨ty, as, [], []⟩)], nextId := g.nextId + 1 } pk (fun pe => { pe with owned := updA pe.owned ck [] (fun l => l ++ [g.nextId]) })) pj (fun pe => { pe with refs := updA pe.refs cj [] (fun l => l ++ [.prom tk]) }), [(tk, g.nextId)]⟩ :=
    Decl.stepInstr_extend_refPromise mm
      ⟨Decl.updE { elems := g.elems ++ [(g.nextId, ⟨ty, as, [], []⟩)], nextId := g.nextId + 1 } pk (fun pe => { pe with owned := updA pe.owned ck [] (fun l => l ++ [g.nextId]) }), [(tk, g.nextId)]⟩
      pj cj tk pej1 hpj1 hcj
  have hG : Decl.updE { elems := (Decl.updE g pj (fun pe => { pe with refs := updA pe.refs cj [] (fun l => l ++ [.prom tk]) })).elems ++ [(g.nextId, ⟨ty, as, [], []⟩)], nextId := g.nextId + 1 } pk (fun pe => { pe with owned := updA pe.owned ck [] (fun l => l ++ [g.nextId]) }) =
      Decl.updE (Decl.updE { elems := g.elems ++ [(g.nextId, ⟨ty, as, [], []⟩)], nextId := g.nextId + 1 } pk (fun pe => { pe with owned := updA pe.owned ck [] (fun l => l ++ [g.nextId]) })) pj (fun pe => { pe with refs := updA pe.refs cj [] (fun l => l ++ [.prom tk]) }) := by
    show Decl.Graph.mk
        (List.map (fun q : Nat × Decl.DElem => if q.1 = pk then (q.1, { q.2 with owned := updA q.2.owned ck [] (fun l => l ++ [g.nextId]) }) else q)
          (List.map (fun q : Nat × Decl.DElem => if q.1 = pj then (q.1, { q.2 with refs := updA q.2.refs cj [] (fun l => l ++ [Decl.PRef.prom tk]) }) else q) g.elems ++ [(g.nextId, (⟨ty, as, [], []⟩ : Decl.DElem))]))
        (g.nextId + 1) =
      Decl.Graph.mk
        (List.map (fun q : Nat × Decl.DElem => if q.1 = pj then (q.1, { q.2 with refs := updA q.2.refs cj [] (fun l => l ++ [Decl.PRef.prom tk]) }) else q)
          (List.map (fun q : Nat × Decl.DElem => if q.1 = pk then (q.1, { q.2 with owned := updA q.2.owned ck [] (fun l => l ++ [g.nextId]) }) else q) (g.elems ++ [(g.nextId, (⟨ty, as, [], []⟩ : Decl.DElem))])))
        (g.nextId + 1)
    congr 1
    rw [List.map_append, List.map_append, List.map_append]
    congr 1
    · exact Decl.map_upd_comm pj pk
        (fun pe => { pe with refs := updA pe.refs cj [] (fun l => l ++ [.prom tk]) })
        (fun pe => { pe with owned := updA pe.owned ck [] (fun l => l ++ [g.nextId]) })
        (fun e => rfl) g.elems
    · simp [hidj, hidk]
  have hfoldJK := Decl.foldInstrs_two mm ⟨g, []⟩ _ _ _ _ hstep1 hstep2
  have hfoldKJ := Decl.foldInstrs_two mm ⟨g, []⟩ _ _ _ _ hstep1k hstep2k
  constructor
  · rw [Decl.applyBatch, Decl.applyBatch, hfoldJK, hfoldKJ]
    dsimp only
    rw [hG]
  · rw [Decl.applyBatch, hfoldJK]
    dsimp only
    have hbound : Decl.TokensBound [(tk, g.nextId)]
        (Decl.updE { elems := (Decl.updE g pj (fun pe => { pe with refs := updA pe.refs cj [] (fun l => l ++ [.prom tk]) })).elems ++ [(g.nextId, ⟨ty, as, [], []⟩)], nextId := g.nextId + 1 } pk (fun pe => { pe with owned := updA pe.owned ck [] (fun l => l ++ [g.nextId]) })) := by
      intro q' hq' cl hcl t ht
      have hq2 : q' ∈ List.map (fun q : Nat × Decl.DElem => if q.1 = pk then (q.1, { q.2 with owned := updA q.2.owned ck [] (fun l => l ++ [g.nextId]) }) else q) (List.map (fun q : Nat × Decl.DElem => if q.1 = pj then (q.1, { q.2 with refs := updA q.2.refs cj [] (fun l => l ++ [Decl.PRef.prom tk]) }) else q) g.elems ++ [(g.nextId, (⟨ty, as, [], []⟩ : Decl.DElem))]) := hq'
      obtain ⟨x, hx, heqx⟩ := List.mem_map.mp hq2
      have hrefs1 : q'.2.refs = (if x.1 = pk then (x.1, { x.2 with owned := updA x.2.owned ck [] (fun l => l ++ [g.nextId]) }) else x).2.refs := by
        rw [← heqx]
      have hrefs2 : q'.2.refs = x.2.refs := by
        rw [hrefs1]
        by_cases hk : x.1 = pk
        · rw [if_pos hk]
        · rw [if_neg hk]
      have hclx : cl ∈ x.2.refs := hrefs2 ▸ hcl
      rcases List.mem_append.mp hx with hx1 | hx2
      · obtain ⟨q, hq, heqq⟩ := List.mem_map.mp hx1
        have hrefs3 : x.2.refs = (if q.1 = pj then (q.1, { q.2 with refs := updA q.2.refs cj [] (fun l => l ++ [Decl.PRef.prom tk]) }) else q).2.refs := by
          rw [← heqq]
        have hqnp := Decl.wfG_elem_noProm g hwf hq
        rw [List.all_eq_true] at hqnp
        by_cases hj : q.1 = pj
        · rw [hrefs3, if_pos hj] at hclx
          have hclx2 : cl ∈ setA q.2.refs cj (((getA q.2.refs cj).getD []) ++ [Decl.PRef.prom tk]) := hclx
          rcases Decl.mem_setA hclx2 with hold | hnew
          · exact absurd ht (Decl.not_prom_mem (hqnp cl hold) t)
          · have ht2 : Decl.PRef.prom t ∈ ((getA q.2.refs cj).getD []) ++ [Decl.PRef.prom tk] := by
              rw [hnew] at ht
              exact ht
            rcases List.mem_append.mp ht2 with hold2 | hnew2
            · have hnp0 : Decl.noProm ((getA q.2.refs cj).getD []) = true := by
                cases hg0 : getA q.2.refs cj with
                | none => rfl
                | some rs0 => exact hqnp (cj, rs0) (getA_mem hg0)
              exact absurd hold2 (Decl.not_prom_mem hnp0 t)
            · have h5 := List.mem_singleton.mp hnew2
              have htt : t = tk := Decl.PRef.prom.inj h5
              rw [htt]
              show (getA [(tk, g.nextId)] tk).isSome = true
              simp [getA]
        · rw [hrefs3, if_neg hj] at hclx
          exact absurd ht (Decl.not_prom_mem (hqnp cl hclx) t)
      · have hxe : x = (g.nextId, (⟨ty, as, [], []⟩ : Decl.DElem)) := List.mem_singleton.mp hx2
        rw [hxe] at hclx
        have hclx3 : cl ∈ ([] : List (String × List Decl.PRef)) := hclx
        exact absurd hclx3 (List.not_mem_nil cl)
    obtain ⟨g', hres⟩ := Decl.resolvePromises_ok [(tk, g.nextId)] _ hbound
    rw [hres]
    rfl

theorem c4_witness :
    Decl.applyBatch Decl.mm0 Decl.g0
        [⟨.byId 1, [.extend "allocated_functions" [.refPromise "tok"]]⟩,
         ⟨.byId 0, [.extend "functions" [.newObj "LogicalFunction" [("name", "new")] (some "tok")]]⟩] =
      Decl.applyBatch Decl.mm0 Decl.g0
        [⟨.byId 0, [.extend "functions" [.newObj "LogicalFunction" [("name", "new")] (some "tok")]]⟩,
         ⟨.byId 1, [.extend "allocated_functions" [.refPromise "tok"]]⟩] ∧
    Decl.exOk (Decl.applyBatch Decl.mm0 Decl.g0
        [⟨.byId 1, [.extend "allocated_functions" [.refPromise "tok"]]⟩,
         ⟨.byId 0, [.extend "functions" [.newObj "LogicalFunction" [("name", "new")] (some "tok")]]⟩]) = true :=
  c4_promise_order_independence Decl.mm0 Decl.g0 1 0 "allocated_functions" "functions" "tok"
    "LogicalFunction" [("name", "new")] (by decide)
    ⟨"LogicalFunction", [("name", "produce Great Wizards")], [("functions", [2])], []⟩ (by rfl)
    ⟨"LogicalComponent", [("name", "Hogwarts")], [("functions", [1])], [("allocated_functions", [.res 1])]⟩ (by rfl)
    (by rfl) (by rfl)

theorem setA_getA_self [DecidableEq K] :
    ∀ (l : List (K × V)) (k : K) (v : V), getA l k = some v → setA l k v = l := by
  intro l
  induction l with
  | nil =>
    intro k v h
    rw [getA] at h
    exact absurd h (by simp)
  | cons q r ih =>
    intro k v h
    rw [getA] at h
    rw [setA]
    by_cases hk : q.1 = k
    · rw [if_pos hk] at h
      rw [if_pos hk, ← Option.some.inj h]
    · rw [if_neg hk] at h
      rw [if_neg hk, ih k v h]

theorem find_congrB (p p' : α → Bool) :
    ∀ l : List α, (∀ x ∈ l, p x = p' x) → l.find? p = l.find? p' := by
  intro l
  induction l with
  | nil => intro _; rfl
  | cons a r ih =>
    intro h
    have h1 : p a = p' a := h a (List.mem_cons_self a r)
    cases hpa : p a with
    | true =>
      simp only [List.find?_cons, hpa, (h1 ▸ hpa : p' a = true)]
    | false =>
      simp only [List.find?_cons, hpa, (h1 ▸ hpa : p' a = false)]
      exact ih (fun x hx => h x (List.mem_cons_of_mem a hx))

theorem find_append_noneB (p : α → Bool) :
    ∀ (l1 l2 : List α), l1.find? p = none → (l1 ++ l2).find? p = l2.find? p := by
  intro l1
  induction l1 with
  | nil => intro l2 _; rfl
  | cons a r ih =>
    intro l2 h
    have hpa : p a = false := by
      have hna := List.find?_eq_none.mp h a (List.mem_cons_self a r)
      cases hb : p a
      · rfl
      · exact absurd hb hna
    have hr : r.find? p = none := by
      rw [List.find?_eq_none]
      intro x hx
      exact List.find?_eq_none.mp h x (List.mem_cons_of_mem a hx)
    rw [List.cons_append]
    simp only [List.find?_cons, hpa]
    exact ih l2 hr

theorem any_key_map_upd [DecidableEq K] (c k : K) (f : V → V) :
    ∀ l : List (K × V),
      (l.map (fun q => if q.1 = c then (q.1, f q.2) else q)).any (fun q => q.1 = k) =
        l.any (fun q => q.1 = k) := by
  intro l
  induction l with
  | nil => rfl
  | cons q r ih =>
    rw [List.map_cons, List.any_cons, List.any_cons, ih]
    congr 1
    by_cases hqc : q.1 = c
    · rw [if_pos hqc]
    · rw [if_neg hqc]

theorem noDupKeys_map_upd [DecidableEq K] (c : K) (f : V → V) :
    ∀ l : List (K × V),
      noDupKeys (l.map (fun q => if q.1 = c then (q.1, f q.2) else q)) = noDupKeys l := by
  intro l
  induction l with
  | nil => rfl
  | cons q r ih =>
    rw [List.map_cons]
    by_cases hqc : q.1 = c
    · rw [if_pos hqc]
      rw [noDupKeys, noDupKeys, ih, any_key_map_upd]
    · rw [if_neg hqc]
      rw [noDupKeys, noDupKeys, ih, any_key_map_upd]

theorem map_upd_id_of_no_key [DecidableEq K] (c : K) (f : V → V) :
    ∀ l : List (K × V), (∀ q ∈ l, ¬q.1 = c) →
      l.map (fun q => if q.1 = c then (q.1, f q.2) else q) = l := by
  intro l
  induction l with
  | nil => intro _; rfl
  | cons a s ihs =>
    intro h
    rw [List.map_cons, if_neg (h a (List.mem_cons_self a s)),
      ihs (fun q' h' => h q' (List.mem_cons_of_mem a h'))]

theorem map_upd_self [DecidableEq K] (c : K) (f : V → V) (ec : V) (hf : f ec = ec) :
    ∀ l : List (K × V), noDupKeys l = true → getA l c = some ec →
      l.map (fun q => if q.1 = c then (q.1, f q.2) else q) = l := by
  intro l
  induction l with
  | nil =>
    intro _ h
    rw [getA] at h
    exact absurd h (by simp)
  | cons q r ih =>
    intro hnd hg
    rw [getA] at hg
    rw [List.map_cons]
    by_cases hqc : q.1 = c
    · rw [if_pos hqc] at hg
      have hq2 : q.2 = ec := Option.some.inj hg
      have hnone : getA r c = none := by
        have := noDupKeys_head_none hnd
        rw [hqc] at this
        exact this
      have hnokey : ∀ q' ∈ r, ¬q'.1 = c := by
        intro q' h' heq
        have h2 := getA_eq_none_iff.mp hnone q'.2
        rw [← heq] at h2
        exact h2 h'
      rw [if_pos hqc, hq2, hf, ← hq2, map_upd_id_of_no_key c f r hnokey]
    · rw [if_neg hqc] at hg
      rw [if_neg hqc, ih (noDupKeys_tail hnd) hg]

namespace Decl

theorem getA_applyKVs_not_key (k : String) :
    ∀ (kvs a : List (String × String)), (∀ kv ∈ kvs, ¬kv.1 = k) →
      getA (applyKVs a kvs) k = getA a k := by
  intro kvs
  induction kvs with
  | nil => intro a _; rfl
  | cons kv r ih =>
    intro a h
    show getA (applyKVs (setA a kv.1 kv.2) r) k = getA a k
    rw [ih (setA a kv.1 kv.2) (fun kv' h' => h kv' (List.mem_cons_of_mem kv h'))]
    exact getA_setA_other a kv.1 k kv.2 (h kv (List.mem_cons_self kv r))

theorem applyKVs_idem :
    ∀ (kvs a : List (String × String)), noDupKeys kvs = true →
      applyKVs (applyKVs a kvs) kvs = applyKVs a kvs := by
  intro kvs
  induction kvs with
  | nil => intro a _; rfl
  | cons kv r ih =>
    intro a h
    show applyKVs (setA (applyKVs (setA a kv.1 kv.2) r) kv.1 kv.2) r =
      applyKVs (setA a kv.1 kv.2) r
    have hkey : ∀ kv' ∈ r, ¬kv'.1 = kv.1 := by
      have hn := noDupKeys_head_none h
      intro kv' h' heq
      have h2 := getA_eq_none_iff.mp hn kv'.2
      rw [← heq] at h2
      exact h2 h'
    have hgB : getA (applyKVs (setA a kv.1 kv.2) r) kv.1 = some kv.2 := by
      rw [getA_applyKVs_not_key kv.1 r (setA a kv.1 kv.2) hkey]
      exact getA_setA_same a kv.1 kv.2
    rw [setA_getA_self _ kv.1 kv.2 hgB]
    exact ih (setA a kv.1 kv.2) (noDupKeys_tail h)

theorem getA_applyKVs_mem :
    ∀ (fs a : List (String × String)) (k v : String), noDupKeys fs = true → (k, v) ∈ fs →
      getA (applyKVs a fs) k = some v := by
  intro fs
  induction fs with
  | nil =>
    intro a k v _ hm
    exact absurd hm (List.not_mem_nil _)
  | cons kv r ih =>
    intro a k v hnd hm
    show getA (applyKVs (setA a kv.1 kv.2) r) k = some v
    rcases List.mem_cons.mp hm with heq | hm'
    · have hk1 : kv.1 = k := by rw [← heq]
      have hv1 : kv.2 = v := by rw [← heq]
      have hkey : ∀ kv' ∈ r, ¬kv'.1 = k := by
        have hn := noDupKeys_head_none hnd
        rw [hk1] at hn
        intro kv' h' heq2
        have h2 := getA_eq_none_iff.mp hn kv'.2
        rw [← heq2] at h2
        exact h2 h'
      rw [getA_applyKVs_not_key k r (setA a kv.1 kv.2) hkey, hk1, hv1]
      exact getA_setA_same a k v
    · exact ih (setA a kv.1 kv.2) k v (noDupKeys_tail hnd) hm'

theorem matchesFind_iff (e : DElem) (fs : List (String × String)) :
    matchesFind e fs = true ↔ ∀ kv ∈ fs, getA e.attrs kv.1 = some kv.2 := by
  rw [matchesFind, List.all_eq_true]
  simp only [decide_eq_true_eq]

theorem matchesFind_preserved (a vals fs : List (String × String))
    (hdisj : ∀ kv ∈ vals, getA fs kv.1 = none)
    (h : ∀ kv ∈ fs, getA a kv.1 = some kv.2) :
    ∀ kv ∈ fs, getA (applyKVs a vals) kv.1 = some kv.2 := by
  intro kv hkv
  have hkeys : ∀ kv' ∈ vals, ¬kv'.1 = kv.1 := by
    intro kv' h' heq
    have hn := hdisj kv' h'
    rw [heq] at hn
    exact (getA_eq_none_iff.mp hn kv.2) hkv
  rw [getA_applyKVs_not_key kv.1 vals a hkeys]
  exact h kv hkv

theorem updE_eq_self {g : Graph} {c : Nat} {ec : DElem} (f : DElem → DElem)
    (hnd : noDupKeys g.elems = true) (hlk : lookupE g c = some ec) (hf : f ec = ec) :
    updE g c f = g := by
  have h2 : g.elems.map (fun q => if q.1 = c then (q.1, f q.2) else q) = g.elems :=
    map_upd_self c f ec hf g.elems hnd hlk
  show { g with elems := g.elems.map (fun q => if q.1 = c then (q.1, f q.2) else q) } = g
  rw [h2]

theorem wfG_noPromG (g : Graph) (hwf : wfG g = true) : noPromG g = true := by
  rw [noPromG]
  exact List.all_eq_true.mpr (fun q hq => wfG_elem_noProm g hwf hq)

theorem noPromG_updE (g : Graph) (c : Nat) (f : DElem → DElem)
    (hrefs : ∀ e, (f e).refs = e.refs) (h : noPromG g = true) :
    noPromG (updE g c f) = true := by
  rw [noPromG, List.all_eq_true]
  rw [noPromG, List.all_eq_true] at h
  intro q hq
  have hq2 : q ∈ g.elems.map (fun q' => if q'.1 = c then (q'.1, f q'.2) else q') := hq
  obtain ⟨x, hx, heq⟩ := List.mem_map.mp hq2
  have hr1 : q.2.refs = (if x.1 = c then (x.1, f x.2) else x).2.refs := by
    rw [← heq]
  have hr2 : q.2.refs = x.2.refs := by
    rw [hr1]
    by_cases hxc : x.1 = c
    · rw [if_pos hxc]
      exact hrefs x.2
    · rw [if_neg hxc]
  have hx2 : x.2.refs.all (fun cl => noProm cl.2) = true := h x hx
  show q.2.refs.all (fun cl => noProm cl.2) = true
  rw [hr2]
  exact hx2

theorem noPromG_addOne (g : Graph) (i : Nat) (e : DElem) (n : Nat)
    (h : noPromG g = true) (he : e.refs.all (fun cl => noProm cl.2) = true) :
    noPromG { elems := g.elems ++ [(i, e)], nextId := n } = true := by
  rw [noPromG, List.all_eq_true]
  rw [noPromG, List.all_eq_true] at h
  intro q hq
  have hq2 : q ∈ g.elems ++ [(i, e)] := hq
  rcases List.mem_append.mp hq2 with h1 | h2
  · exact h q h1
  · have heq : q = (i, e) := List.mem_singleton.mp h2
    rw [heq]
    exact he

theorem getA_nextId_none (g : Graph) (hwf : wfG g = true) :
    getA g.elems g.nextId = none :=
  getA_eq_none_iff.mpr
    (fun v hmem => absurd (((wfG_iff g).mp hwf).2 g.nextId v hmem).1 (Nat.lt_irrefl _))

theorem stepInstr_sync_found (mm : MM) (st : PState) (pid : Nat) (coll : String)
    (fs vals : List (String × String)) (pe : DElem) (c : Nat)
    (hpe : lookupE st.g pid = some pe) (hmm : mm coll = true)
    (hfc : findChild st.g ((getA pe.owned coll).getD []) fs = some c) :
    stepInstr mm st ⟨.byId pid, [.sync coll fs vals none]⟩ =
      .ok { st with g := updE st.g c (fun ce => { ce with attrs := applyKVs ce.attrs vals }) } := by
  simp only [stepInstr, resolveSelector_byId st.g pid pe hpe, foldE, applyOp, applySync, hmm,
    hpe, hfc, bindPromise, if_true]

theorem stepInstr_sync_create (mm : MM) (st : PState) (pid : Nat) (coll : String)
    (fs vals : List (String × String)) (pe : DElem)
    (hpe : lookupE st.g pid = some pe) (hmm : mm coll = true)
    (hfc : findChild st.g ((getA pe.owned coll).getD []) fs = none) :
    stepInstr mm st ⟨.byId pid, [.sync coll fs vals none]⟩ =
      .ok ⟨updE { elems := st.g.elems ++ [(st.g.nextId, ⟨"", applyKVs (applyKVs [] fs) vals, [], []⟩)], nextId := st.g.nextId + 1 } pid (fun pe2 => { pe2 with owned := updA pe2.owned coll [] (fun l => l ++ [st.g.nextId]) }), st.promises⟩ := by
  simp only [stepInstr, resolveSelector_byId st.g pid pe hpe, foldE, applyOp, applySync, hmm,
    hpe, hfc, bindPromise, addE, if_true]

end Decl

/-- C5 (amended): sync is idempotent when the `set` attributes do not
override any `find` attribute: applying the same promise-free sync
instruction twice in one batch produces exactly the result of applying it
once — the second pass finds the element the first pass found or created and
rewrites its attributes to the same values — and the batch succeeds. -/
theorem c5_sync_idempotent_amended (mm : Decl.MM) (g : Decl.Graph)
    (pid : Nat) (coll : String) (fs vals : List (String × String))
    (hwf : Decl.wfG g = true) (hmm : mm coll = true)
    (pe : Decl.DElem) (hpe : Decl.lookupE g pid = some pe)
    (hndf : noDupKeys fs = true) (hndv : noDupKeys vals = true)
    (hdisj : ∀ kv ∈ vals, getA fs kv.1 = none) :
    Decl.applyBatch mm g [⟨.byId pid, [.sync coll fs vals none]⟩,
        ⟨.byId pid, [.sync coll fs vals none]⟩] =
      Decl.applyBatch mm g [⟨.byId pid, [.sync coll fs vals none]⟩] ∧
    Decl.exOk (Decl.applyBatch mm g [⟨.byId pid, [.sync coll fs vals none]⟩]) = true := by
  have hnd : noDupKeys g.elems = true := ((Decl.wfG_iff g).mp hwf).1
  have hnpg : Decl.noPromG g = true := Decl.wfG_noPromG g hwf
  cases hfc : Decl.findChild g ((getA pe.owned coll).getD []) fs with
  | some c =>
    have hfc' : ((getA pe.owned coll).getD []).find?
        (fun c' => match Decl.lookupE g c' with
          | some e => Decl.matchesFind e fs
          | none => false) = some c := hfc
    have hpred := List.find?_some hfc'
    cases hce : Decl.lookupE g c with
    | none =>
      exfalso
      have h2 : (match Decl.lookupE g c with
          | some e => Decl.matchesFind e fs
          | none => false) = true := hpred
      rw [hce] at h2
      exact absurd h2 (by simp)
    | some ce =>
      have hm : Decl.matchesFind ce fs = true := by
        have h2 : (match Decl.lookupE g c with
            | some e => Decl.matchesFind e fs
            | none => false) = true := hpred
        rw [hce] at h2
        exact h2
      have hm2 : Decl.matchesFind { ce with attrs := Decl.applyKVs ce.attrs vals } fs = true := by
        rw [Decl.matchesFind_iff]
        exact Decl.matchesFind_preserved ce.attrs vals fs hdisj ((Decl.matchesFind_iff ce fs).mp hm)
      have hstep1 : Decl.stepInstr mm ⟨g, []⟩ ⟨.byId pid, [.sync coll fs vals none]⟩ =
          .ok ⟨Decl.updE g c (fun ce' => { ce' with attrs := Decl.applyKVs ce'.attrs vals }), []⟩ :=
        Decl.stepInstr_sync_found mm ⟨g, []⟩ pid coll fs vals pe c hpe hmm hfc
      have hpe1 : Decl.lookupE (Decl.updE g c (fun ce' => { ce' with attrs := Decl.applyKVs ce'.attrs vals })) pid =
          some (if pid = c then { pe with attrs := Decl.applyKVs pe.attrs vals } else pe) := by
        rw [Decl.lookupE_updE]
        by_cases hpc : pid = c
        · rw [if_pos hpc, if_pos hpc, hpe]
          rfl
        · rw [if_neg hpc, if_neg hpc, hpe]
      have howned : (if pid = c then { pe with attrs := Decl.applyKVs pe.attrs vals } else pe).owned = pe.owned := by
        by_cases hpc : pid = c
        · rw [if_pos hpc]
        · rw [if_neg hpc]
      have hpteq : ∀ x ∈ (getA pe.owned coll).getD [],
          (fun c' => match Decl.lookupE (Decl.updE g c (fun ce' => { ce' with attrs := Decl.applyKVs ce'.attrs vals })) c' with
            | some e => Decl.matchesFind e fs
            | none => false) x =
          (fun c' => match Decl.lookupE g c' with
            | some e => Decl.matchesFind e fs
            | none => false) x := by
        intro x hx
        show (match Decl.lookupE (Decl.updE g c (fun ce' => { ce' with attrs := Decl.applyKVs ce'.attrs vals })) x with
            | some e => Decl.matchesFind e fs
            | none => false) =
          (match Decl.lookupE g x with
            | some e => Decl.matchesFind e fs
            | none => false)
        rw [Decl.lookupE_updE]
        by_cases hxc : x = c
        · rw [if_pos hxc, hxc, hce]
          show Decl.matchesFind { ce with attrs := Decl.applyKVs ce.attrs vals } fs = Decl.matchesFind ce fs
          rw [hm2, hm]
        · rw [if_neg hxc]
      have hfind2 : ((getA pe.owned coll).getD []).find?
          (fun c' => match Decl.lookupE (Decl.updE g c (fun ce' => { ce' with attrs := Decl.applyKVs ce'.attrs vals })) c' with
            | some e => Decl.matchesFind e fs
            | none => false) = some c := by
        rw [find_congrB _ _ ((getA pe.owned coll).getD []) hpteq]
        exact hfc'
      have hfcg1 : Decl.findChild (Decl.updE g c (fun ce' => { ce' with attrs := Decl.applyKVs ce'.attrs vals }))
          ((getA (if pid = c then { pe with attrs := Decl.applyKVs pe.attrs vals } else pe).owned coll).getD []) fs = some c := by
        rw [howned]
        exact hfind2
      have hstep2 : Decl.stepInstr mm ⟨Decl.updE g c (fun ce' => { ce' with attrs := Decl.applyKVs ce'.attrs vals }), []⟩
          ⟨.byId pid, [.sync coll fs vals none]⟩ =
          .ok ⟨Decl.updE (Decl.updE g c (fun ce' => { ce' with attrs := Decl.applyKVs ce'.attrs vals })) c
            (fun ce' => { ce' with attrs := Decl.applyKVs ce'.attrs vals }), []⟩ :=
        Decl.stepInstr_sync_found mm ⟨Decl.updE g c (fun ce' => { ce' with attrs := Decl.applyKVs ce'.attrs vals }), []⟩
          pid coll fs vals _ c hpe1 hmm hfcg1
      have hlkc1 : Decl.lookupE (Decl.updE g c (fun ce' => { ce' with attrs := Decl.applyKVs ce'.attrs vals })) c =
          some { ce with attrs := Decl.applyKVs ce.attrs vals } := by
        rw [Decl.lookupE_updE, if_pos rfl, hce]
        rfl
      have hnd1 : noDupKeys (Decl.updE g c (fun ce' => { ce' with attrs := Decl.applyKVs ce'.attrs vals })).elems = true := by
        have h4 := noDupKeys_map_upd c (fun ce' => { ce' with attrs := Decl.applyKVs ce'.attrs vals }) g.elems
        exact h4.trans hnd
      have hfixE : (fun ce' => { ce' with attrs := Decl.applyKVs ce'.attrs vals })
          ({ ce with attrs := Decl.applyKVs ce.attrs vals } : Decl.DElem) =
          ({ ce with attrs := Decl.applyKVs ce.attrs vals } : Decl.DElem) := by
        show ({ ce with attrs := Decl.applyKVs (Decl.applyKVs ce.attrs vals) vals } : Decl.DElem) =
          { ce with attrs := Decl.applyKVs ce.attrs vals }
        rw [Decl.applyKVs_idem vals ce.attrs hndv]
      have hfix : Decl.updE (Decl.updE g c (fun ce' => { ce' with attrs := Decl.applyKVs ce'.attrs vals })) c
          (fun ce' => { ce' with attrs := Decl.applyKVs ce'.attrs vals }) =
          Decl.updE g c (fun ce' => { ce' with attrs := Decl.applyKVs ce'.attrs vals }) :=
        Decl.updE_eq_self _ hnd1 hlkc1 hfixE
      rw [hfix] at hstep2
      have hfold2 := Decl.foldInstrs_two mm ⟨g, []⟩ _ _ _ _ hstep1 hstep2
      have hfold1 : Decl.foldInstrs mm ⟨g, []⟩ [⟨.byId pid, [.sync coll fs vals none]⟩] =
          .ok ⟨Decl.updE g c (fun ce' => { ce' with attrs := Decl.applyKVs ce'.attrs vals }), []⟩ := by
        rw [Decl.foldInstrs, hstep1]
        rfl
      have hnp1 : Decl.noPromG (Decl.updE g c (fun ce' => { ce' with attrs := Decl.applyKVs ce'.attrs vals })) = true :=
        Decl.noPromG_updE g c _ (fun e => rfl) hnpg
      have hA1 : Decl.applyBatch mm g [⟨.byId pid, [.sync coll fs vals none]⟩] =
          .ok (Decl.updE g c (fun ce' => { ce' with attrs := Decl.applyKVs ce'.attrs vals })) := by
        rw [Decl.applyBatch, hfold1]
        exact Decl.resolvePromises_id [] _ hnp1
      have hA2 : Decl.applyBatch mm g [⟨.byId pid, [.sync coll fs vals none]⟩, ⟨.byId pid, [.sync coll fs vals none]⟩] =
          .ok (Decl.updE g c (fun ce' => { ce' with attrs := Decl.applyKVs ce'.attrs vals })) := by
        rw [Decl.applyBatch, hfold2]
        exact Decl.resolvePromises_id [] _ hnp1
      refine ⟨hA2.trans hA1.symm, ?_⟩
      rw [hA1]
      rfl
  | none =>
    have hfc' : ((getA pe.owned coll).getD []).find?
        (fun c' => match Decl.lookupE g c' with
          | some e => Decl.matchesFind e fs
          | none => false) = none := hfc
    have hpidlt : pid < g.nextId := (((Decl.wfG_iff g).mp hwf).2 pid pe (getA_mem hpe)).1
    have hgid : getA g.elems g.nextId = none := Decl.getA_nextId_none g hwf
    have hstep1 : Decl.stepInstr mm ⟨g, []⟩ ⟨.byId pid, [.sync coll fs vals none]⟩ =
        .ok ⟨Decl.updE { elems := g.elems ++ [(g.nextId, ⟨"", Decl.applyKVs (Decl.applyKVs [] fs) vals, [], []⟩)], nextId := g.nextId + 1 } pid (fun pe2 => { pe2 with owned := updA pe2.owned coll [] (fun l => l ++ [g.nextId]) }), []⟩ :=
      Decl.stepInstr_sync_create mm ⟨g, []⟩ pid coll fs vals pe hpe hmm hfc
    have hlkGA : Decl.lookupE { elems := g.elems ++ [(g.nextId, ⟨"", Decl.applyKVs (Decl.applyKVs [] fs) vals, [], []⟩)], nextId := g.nextId + 1 } pid = some pe :=
      getA_append_some hpe _
    have hlk2pid : Decl.lookupE (Decl.updE { elems := g.elems ++ [(g.nextId, ⟨"", Decl.applyKVs (Decl.applyKVs [] fs) vals, [], []⟩)], nextId := g.nextId + 1 } pid (fun pe2 => { pe2 with owned := updA pe2.owned coll [] (fun l => l ++ [g.nextId]) })) pid =
        some ({ pe with owned := updA pe.owned coll [] (fun l => l ++ [g.nextId]) }) := by
      rw [Decl.lookupE_updE, if_pos rfl, hlkGA]
      rfl
    have hkids2 : (getA ({ pe with owned := updA pe.owned coll [] (fun l => l ++ [g.nextId]) } : Decl.DElem).owned coll).getD [] =
        ((getA pe.owned coll).getD []) ++ [g.nextId] := by
      show (getA (setA pe.owned coll (((getA pe.owned coll).getD []) ++ [g.nextId])) coll).getD [] =
        ((getA pe.owned coll).getD []) ++ [g.nextId]
      rw [getA_setA_same]
      rfl
    have hlive : ∀ x ∈ (getA pe.owned coll).getD [], pid < x ∧ (Decl.lookupE g x).isSome = true := by
      intro x hx
      cases hgo : getA pe.owned coll with
      | none =>
        rw [hgo] at hx
        exact absurd hx (List.not_mem_nil x)
      | some ks =>
        rw [hgo] at hx
        exact (((Decl.wfG_iff g).mp hwf).2 pid pe (getA_mem hpe)).2.1 coll ks (getA_mem hgo) x hx
    have hxlt : ∀ x ∈ (getA pe.owned coll).getD [], x < g.nextId := by
      intro x hx
      obtain ⟨_, hsx⟩ := hlive x hx
      cases hlx : Decl.lookupE g x with
      | none =>
        rw [hlx] at hsx
        exact absurd hsx (by simp)
      | some ex => exact (((Decl.wfG_iff g).mp hwf).2 x ex (getA_mem hlx)).1
    have hnone1 : ((getA pe.owned coll).getD []).find?
        (fun c' => match Decl.lookupE (Decl.updE { elems := g.elems ++ [(g.nextId, ⟨"", Decl.applyKVs (Decl.applyKVs [] fs) vals, [], []⟩)], nextId := g.nextId + 1 } pid (fun pe2 => { pe2 with owned := updA pe2.owned coll [] (fun l => l ++ [g.nextId]) })) c' with
          | some e => Decl.matchesFind e fs
          | none => false) = none := by
      rw [List.find?_eq_none]
      intro x hx hpx
      have hxpid : ¬x = pid := by
        have := (hlive x hx).1
        omega
      have hxid : ¬x = g.nextId := by
        have := hxlt x hx
        omega
      have hlkx : Decl.lookupE (Decl.updE { elems := g.elems ++ [(g.nextId, ⟨"", Decl.applyKVs (Decl.applyKVs [] fs) vals, [], []⟩)], nextId := g.nextId + 1 } pid (fun pe2 => { pe2 with owned := updA pe2.owned coll [] (fun l => l ++ [g.nextId]) })) x =
          Decl.lookupE g x := by
        rw [Decl.lookupE_updE, if_neg hxpid]
        show getA (g.elems ++ [(g.nextId, ⟨"", Decl.applyKVs (Decl.applyKVs [] fs) vals, [], []⟩)]) x = getA g.elems x
        cases hlx : getA g.elems x with
        | some ex => exact getA_append_some hlx _
        | none =>
          rw [getA_append_none hlx, getA, if_neg (fun h => hxid h.symm)]
          rfl
      have hpx2 : (match Decl.lookupE g x with
          | some e => Decl.matchesFind e fs
          | none => false) = true := by
        have h3 : (match Decl.lookupE (Decl.updE { elems := g.elems ++ [(g.nextId, ⟨"", Decl.applyKVs (Decl.applyKVs [] fs) vals, [], []⟩)], nextId := g.nextId + 1 } pid (fun pe2 => { pe2 with owned := updA pe2.owned coll [] (fun l => l ++ [g.nextId]) })) x with
            | some e => Decl.matchesFind e fs
            | none => false) = true := hpx
        rw [hlkx] at h3
        exact h3
      exact (List.find?_eq_none.mp hfc' x hx) hpx2
    have hpidne : ¬g.nextId = pid := by omega
    have hlkid : Decl.lookupE (Decl.updE { elems := g.elems ++ [(g.nextId, ⟨"", Decl.applyKVs (Decl.applyKVs [] fs) vals, [], []⟩)], nextId := g.nextId + 1 } pid (fun pe2 => { pe2 with owned := updA pe2.owned coll [] (fun l => l ++ [g.nextId]) })) g.nextId =
        some (⟨"", Decl.applyKVs (Decl.applyKVs [] fs) vals, [], []⟩ : Decl.DElem) := by
      rw [Decl.lookupE_updE, if_neg hpidne]
      show getA (g.elems ++ [(g.nextId, (⟨"", Decl.applyKVs (Decl.applyKVs [] fs) vals, [], []⟩ : Decl.DElem))]) g.nextId =
        some (⟨"", Decl.applyKVs (Decl.applyKVs [] fs) vals, [], []⟩ : Decl.DElem)
      rw [getA_append_none hgid, getA, if_pos rfl]
    have hmEN : Decl.matchesFind (⟨"", Decl.applyKVs (Decl.applyKVs [] fs) vals, [], []⟩ : Decl.DElem) fs = true := by
      rw [Decl.matchesFind_iff]
      intro kv hkv
      exact Decl.matchesFind_preserved (Decl.applyKVs [] fs) vals fs hdisj
        (fun kv' hkv' => Decl.getA_applyKVs_mem fs [] kv'.1 kv'.2 hndf hkv') kv hkv
    have hfind2 : (((getA pe.owned coll).getD []) ++ [g.nextId]).find?
        (fun c' => match Decl.lookupE (Decl.updE { elems := g.elems ++ [(g.nextId, ⟨"", Decl.applyKVs (Decl.applyKVs [] fs) vals, [], []⟩)], nextId := g.nextId + 1 } pid (fun pe2 => { pe2 with owned := updA pe2.owned coll [] (fun l => l ++ [g.nextId]) })) c' with
          | some e => Decl.matchesFind e fs
          | none => false) = some g.nextId := by
      rw [find_append_noneB _ _ _ hnone1]
      have hp2 : (match Decl.lookupE (Decl.updE { elems := g.elems ++ [(g.nextId, ⟨"", Decl.applyKVs (Decl.applyKVs [] fs) vals, [], []⟩)], nextId := g.nextId + 1 } pid (fun pe2 => { pe2 with owned := updA pe2.owned coll [] (fun l => l ++ [g.nextId]) })) g.nextId with
          | some e => Decl.matchesFind e fs
          | none => false) = true := by
        rw [hlkid]
        exact hmEN
      simp only [List.find?_cons, hp2]
    have hfcg2 : Decl.findChild (Decl.updE { elems := g.elems ++ [(g.nextId, ⟨"", Decl.applyKVs (Decl.applyKVs [] fs) vals, [], []⟩)], nextId := g.nextId + 1 } pid (fun pe2 => { pe2 with owned := updA pe2.owned coll [] (fun l => l ++ [g.nextId]) }))
        ((getA ({ pe with owned := updA pe.owned coll [] (fun l => l ++ [g.nextId]) } : Decl.DElem).owned coll).getD []) fs = some g.nextId := by
      rw [hkids2]
      exact hfind2
    have hstep2 : Decl.stepInstr mm ⟨Decl.updE { elems := g.elems ++ [(g.nextId, ⟨"", Decl.applyKVs (Decl.applyKVs [] fs) vals, [], []⟩)], nextId := g.nextId + 1 } pid (fun pe2 => { pe2 with owned := updA pe2.owned coll [] (fun l => l ++ [g.nextId]) }), []⟩
        ⟨.byId pid, [.sync coll fs vals none]⟩ =
        .ok ⟨Decl.updE (Decl.updE { elems := g.elems ++ [(g.nextId, ⟨"", Decl.applyKVs (Decl.applyKVs [] fs) vals, [], []⟩)], nextId := g.nextId + 1 } pid (fun pe2 => { pe2 with owned := updA pe2.owned coll [] (fun l => l ++ [g.nextId]) })) g.nextId (fun ce' => { ce' with attrs := Decl.applyKVs ce'.attrs vals }), []⟩ :=
      Decl.stepInstr_sync_found mm ⟨Decl.updE { elems := g.elems ++ [(g.nextId, ⟨"", Decl.applyKVs (Decl.applyKVs [] fs) vals, [], []⟩)], nextId := g.nextId + 1 } pid (fun pe2 => { pe2 with owned := updA pe2.owned coll [] (fun l => l ++ [g.nextId]) }), []⟩
        pid coll fs vals ({ pe with owned := updA pe.owned coll [] (fun l => l ++ [g.nextId]) }) g.nextId hlk2pid hmm hfcg2
    have hndGA : noDupKeys (g.elems ++ [(g.nextId, (⟨"", Decl.applyKVs (Decl.applyKVs [] fs) vals, [], []⟩ : Decl.DElem))]) = true :=
      noDupKeys_append_singleton hnd hgid
    have hnd2 : noDupKeys (Decl.updE { elems := g.elems ++ [(g.nextId, ⟨"", Decl.applyKVs (Decl.applyKVs [] fs) vals, [], []⟩)], nextId := g.nextId + 1 } pid (fun pe2 => { pe2 with owned := updA pe2.owned coll [] (fun l => l ++ [g.nextId]) })).elems = true := by
      have h4 := noDupKeys_map_upd pid (fun pe2 => { pe2 with owned := updA pe2.owned coll [] (fun l => l ++ [g.nextId]) }) (g.elems ++ [(g.nextId, (⟨"", Decl.applyKVs (Decl.applyKVs [] fs) vals, [], []⟩ : Decl.DElem))])
      exact h4.trans hndGA
    have hfixE : (fun ce' => { ce' with attrs := Decl.applyKVs ce'.attrs vals })
        (⟨"", Decl.applyKVs (Decl.applyKVs [] fs) vals, [], []⟩ : Decl.DElem) =
        (⟨"", Decl.applyKVs (Decl.applyKVs [] fs) vals, [], []⟩ : Decl.DElem) := by
      show (⟨"", Decl.applyKVs (Decl.applyKVs (Decl.applyKVs [] fs) vals) vals, [], []⟩ : Decl.DElem) =
        (⟨"", Decl.applyKVs (Decl.applyKVs [] fs) vals, [], []⟩ : Decl.DElem)
      rw [Decl.applyKVs_idem vals (Decl.applyKVs [] fs) hndv]
    have hfix : Decl.updE (Decl.updE { elems := g.elems ++ [(g.nextId, ⟨"", Decl.applyKVs (Decl.applyKVs [] fs) vals, [], []⟩)], nextId := g.nextId + 1 } pid (fun pe2 => { pe2 with owned := updA pe2.owned coll [] (fun l => l ++ [g.nextId]) })) g.nextId (fun ce' => { ce' with attrs := Decl.applyKVs ce'.attrs vals }) =
        Decl.updE { elems := g.elems ++ [(g.nextId, ⟨"", Decl.applyKVs (Decl.applyKVs [] fs) vals, [], []⟩)], nextId := g.nextId + 1 } pid (fun pe2 => { pe2 with owned := updA pe2.owned coll [] (fun l => l ++ [g.nextId]) }) :=
      Decl.updE_eq_self _ hnd2 hlkid hfixE
    rw [hfix] at hstep2
    have hfold2 := Decl.foldInstrs_two mm ⟨g, []⟩ _ _ _ _ hstep1 hstep2
    have hfold1 : Decl.foldInstrs mm ⟨g, []⟩ [⟨.byId pid, [.sync coll fs vals none]⟩] =
        .ok ⟨Decl.updE { elems := g.elems ++ [(g.nextId, ⟨"", Decl.applyKVs (Decl.applyKVs [] fs) vals, [], []⟩)], nextId := g.nextId + 1 } pid (fun pe2 => { pe2 with owned := updA pe2.owned coll [] (fun l => l ++ [g.nextId]) }), []⟩ := by
      rw [Decl.foldInstrs, hstep1]
      rfl
    have hnpGA : Decl.noPromG { elems := g.elems ++ [(g.nextId, (⟨"", Decl.applyKVs (Decl.applyKVs [] fs) vals, [], []⟩ : Decl.DElem))], nextId := g.nextId + 1 } = true :=
      Decl.noPromG_addOne g g.nextId (⟨"", Decl.applyKVs (Decl.applyKVs [] fs) vals, [], []⟩ : Decl.DElem) (g.nextId + 1) hnpg rfl
    have hnp1 : Decl.noPromG (Decl.updE { elems := g.elems ++ [(g.nextId, ⟨"", Decl.applyKVs (Decl.applyKVs [] fs) vals, [], []⟩)], nextId := g.nextId + 1 } pid (fun pe2 => { pe2 with owned := updA pe2.owned coll [] (fun l => l ++ [g.nextId]) })) = true :=
      Decl.noPromG_updE { elems := g.elems ++ [(g.nextId, ⟨"", Decl.applyKVs (Decl.applyKVs [] fs) vals, [], []⟩)], nextId := g.nextId + 1 } pid _ (fun e => rfl) hnpGA
    have hA1 : Decl.applyBatch mm g [⟨.byId pid, [.sync coll fs vals none]⟩] =
        .ok (Decl.updE { elems := g.elems ++ [(g.nextId, ⟨"", Decl.applyKVs (Decl.applyKVs [] fs) vals, [], []⟩)], nextId := g.nextId + 1 } pid (fun pe2 => { pe2 with owned := updA pe2.owned coll [] (fun l => l ++ [g.nextId]) })) := by
      rw [Decl.applyBatch, hfold1]
      exact Decl.resolvePromises_id [] _ hnp1
    have hA2 : Decl.applyBatch mm g [⟨.byId pid, [.sync coll fs vals none]⟩, ⟨.byId pid, [.sync coll fs vals none]⟩] =
        .ok (Decl.updE { elems := g.elems ++ [(g.nextId, ⟨"", Decl.applyKVs (Decl.applyKVs [] fs) vals, [], []⟩)], nextId := g.nextId + 1 } pid (fun pe2 => { pe2 with owned := updA pe2.owned coll [] (fun l => l ++ [g.nextId]) })) := by
      rw [Decl.applyBatch, hfold2]
      exact Decl.resolvePromises_id [] _ hnp1
    refine ⟨hA2.trans hA1.symm, ?_⟩
    rw [hA1]
    rfl

theorem c5_witness :
    Decl.applyBatch Decl.mm0 Decl.g0
        [⟨.byId 0, [.sync "functions" [("name", "X")] [("prop", "V")] none]⟩,
         ⟨.byId 0, [.sync "functions" [("name", "X")] [("prop", "V")] none]⟩] =
      Decl.applyBatch Decl.mm0 Decl.g0
        [⟨.byId 0, [.sync "functions" [("name", "X")] [("prop", "V")] none]⟩] ∧
    Decl.exOk (Decl.applyBatch Decl.mm0 Decl.g0
        [⟨.byId 0, [.sync "functions" [("name", "X")] [("prop", "V")] none]⟩]) = true :=
  c5_sync_idempotent_amended Decl.mm0 Decl.g0 0 "functions" [("name", "X")] [("prop", "V")]
    (by decide) (by rfl)
    ⟨"LogicalComponent", [("name", "Hogwarts")], [("functions", [1])], [("allocated_functions", [.res 1])]⟩
    (by rfl) (by decide) (by decide) (by decide)

/-- The unrestricted sync-idempotence claim fails: a sync whose `set` block
overrides the `find` attribute leaves an element the search can no longer
match, so a second application creates a duplicate element. -/
theorem c5_counterexample :
    (Decl.applyBatch Decl.mm0 Decl.g0
        [⟨.byId 0, [.sync "functions" [("name", "X")] [("name", "Y")] none]⟩,
         ⟨.byId 0, [.sync "functions" [("name", "X")] [("name", "Y")] none]⟩]).toOption ≠
      (Decl.applyBatch Decl.mm0 Decl.g0
        [⟨.byId 0, [.sync "functions" [("name", "X")] [("name", "Y")] none]⟩]).toOption := by
  decide
